import Mathlib

/-!
Shallow embedding of `fx/nnc_compile.py` (an FX-graph → NNC lowering pass)
and verification of its specified properties.

The Python source manipulates three kinds of objects:
  * FX graph nodes (name, op, target, args, kwargs, tensor metadata),
  * NNC tensor-expression objects (`te.ExprHandle`, `te.Placeholder`,
    `te.Tensor`, buffers, statements), which this file models as opaque
    syntactic constructors, since the NNC compiler itself is external, and
  * plain Python data (lists, dicts, ints, floats).

Stateful Python code is modelled by explicit state passing; fallible code
(raises) returns `Except`.
-/

namespace NNC

/-- Torch dtypes that appear at the interface of the source file. -/
inductive TorchDType
  | float
  | long
  | float64
  | int32
  | boolT
  deriving DecidableEq, Repr

/-- NNC element types (`te.Dtype.*`). -/
inductive NNCType
  | Float
  | Long
  | Double
  deriving DecidableEq, Repr

/-- The exceptions the Python source can raise (each `RuntimeError` site,
plus generic Python runtime failures such as `KeyError`/`IndexError`). -/
inductive CompileError
  | kwargsNYI
  | dtypeNYI
  | notImplemented
  | keyError
  | badAttr
  | pythonError
  deriving DecidableEq, Repr

/-- `get_nnc_type` from the source: float/long/float64 are supported, any
other dtype raises `RuntimeError("nyi")`. -/
def get_nnc_type : TorchDType → Except CompileError NNCType
  | .float => .ok .Float
  | .long => .ok .Long
  | .float64 => .ok .Double
  | _ => .error .dtypeNYI

/-- Python scalars that flow through `to_expr` and node argument lists. -/
inductive PyScalar
  | int (n : Int)
  | float (q : Rat)
  deriving DecidableEq, Repr

/-- NNC expression handles (`te.ExprHandle`): integer and float constants
plus the symbolic loop-index variables handed to compute bodies. -/
inductive TEExpr
  | intE (n : Int)
  | floatE (q : Rat)
  | var (nm : String)
  deriving DecidableEq, Repr

/-- `to_expr` from the source: ints and floats become constant expression
handles (the source raises for any other type; `PyScalar` covers exactly
the supported ones). -/
def to_expr : PyScalar → TEExpr
  | .int n => .intE n
  | .float q => .floatE q

/-- `get_te_shapes`: a shape's extents as integer expression handles. -/
def get_te_shapes (shape : List Nat) : List TEExpr :=
  shape.map (fun i => .intE (i : Int))

/-- `get_dim_args`: each extent paired with a loop-variable name
`i0, i1, ...` (the source numbers by the length accumulated so far). -/
def get_dim_args (dims : List Nat) : List (TEExpr × String) :=
  dims.foldl (fun acc d => acc ++ [(TEExpr.intE (d : Int), "i" ++ toString acc.length)]) []

/-- `index_or_broadcast` from the source, with the enumeration index made
explicit: output indices (`args`) are scanned with their axis position;
axes at or beyond the operand's rank are skipped (`continue`), a unit
extent yields constant index 0, any other extent passes the output index
through. -/
def index_or_broadcast_go (shape : List Nat) : Nat → List TEExpr → List TEExpr
  | _, [] => []
  | idx, arg :: rest =>
    if h : idx < shape.length then
      (if shape.get ⟨idx, h⟩ = 1 then to_expr (.int 0) else arg)
        :: index_or_broadcast_go shape (idx + 1) rest
    else
      index_or_broadcast_go shape (idx + 1) rest

/-- `index_or_broadcast(shape, *args)` (enumeration starts at axis 0). -/
def index_or_broadcast (shape : List Nat) (args : List TEExpr) : List TEExpr :=
  index_or_broadcast_go shape 0 args

/-- `process_shape`: a zero-rank shape becomes `[1]`; anything else is
returned unchanged. -/
def process_shape (x : List Nat) : List Nat :=
  if x.length = 0 then [1] else x

section IndexOrBroadcastLemmas

theorem index_or_broadcast_go_length (shape : List Nat) :
    ∀ (args : List TEExpr) (idx : Nat),
      (index_or_broadcast_go shape idx args).length =
        min (shape.length - idx) args.length := by
  intro args
  induction args with
  | nil => intro idx; simp [index_or_broadcast_go]
  | cons a rest ih =>
    intro idx
    by_cases h : idx < shape.length
    · simp only [index_or_broadcast_go, dif_pos h, List.length_cons, ih]
      omega
    · simp only [index_or_broadcast_go, dif_neg h, ih]
      omega

theorem index_or_broadcast_go_get? (shape : List Nat) :
    ∀ (args : List TEExpr) (idx i : Nat),
      idx + i < shape.length → i < args.length →
      (index_or_broadcast_go shape idx args).get? i =
        some (if shape.getD (idx + i) 0 = 1 then TEExpr.intE 0 else args.getD i (TEExpr.intE 0)) := by
  intro args
  induction args with
  | nil => intro idx i _ hi; simp at hi
  | cons a rest ih =>
    intro idx i hs hi
    have h : idx < shape.length := by omega
    simp only [index_or_broadcast_go, dif_pos h]
    cases i with
    | zero =>
      simp only [List.get?_cons_zero, Nat.add_zero, List.getD_cons_zero]
      have hg : shape.getD idx 0 = shape.get ⟨idx, h⟩ := by
        simp [List.getD, List.getElem?_eq_getElem h]
      rw [hg]
      rfl
    | succ j =>
      simp only [List.get?_cons_succ, List.getD_cons_succ]
      have hrec := ih (idx + 1) j (by omega) (by simpa using hi)
      rw [hrec]
      have harith : idx + 1 + j = idx + (j + 1) := by omega
      rw [harith]

end IndexOrBroadcastLemmas

/-! ### NNC objects: values, statements, tensors -/

/-- NNC values flowing through the lowering: placeholder data handles,
buffers produced by `te.lower` / `te.Compute` / `te.BufHandle`, raw Python
scalars left untouched by `map_arg`-style traversals, and nested tuples. -/
inductive TEVal
  | placeholderData (nm : String) (ty : NNCType) (shape : List TEExpr)
  | loweredBuf (aten : String) (args : List TEVal) (shape : List TEExpr) (ty : NNCType)
  | computeBuf (nm : String) (dims : List (TEExpr × String)) (body : TEExpr)
  | bufHandle (nm : String) (shape : List TEExpr) (ty : NNCType)
  | scalar (s : PyScalar)
  | tupV (l : List TEVal)

/-- NNC statements (`.stmt()` results and `te.ExternalCall`). -/
inductive TEStmt
  | loweredStmt (aten : String) (args : List TEVal) (shape : List TEExpr) (ty : NNCType)
  | computeStmt (nm : String) (dims : List (TEExpr × String)) (body : TEExpr)
  | externalCall (out : TEVal) (fname : String) (bufArgs : List TEVal) (extra : List TEExpr)

/-- A `te.Tensor`: carries a buffer (`.buf()`) and a statement (`.stmt()`). -/
structure TETensor where
  buf : TEVal
  stmt : TEStmt

/-- `te.lower(aten_str, args, shapes, dtype)`: an opaque named lowering of
the external compiler, modelled as a syntactic constructor. -/
def te_lower (aten : String) (args : List TEVal) (shape : List TEExpr) (ty : NNCType) : TETensor :=
  ⟨.loweredBuf aten args shape ty, .loweredStmt aten args shape ty⟩

/-- `te.Compute(name, dim_args, f)` with the body already applied (the only
compute body in the source is the constant `to_expr(1.0)`). -/
def te_Compute (nm : String) (dims : List (TEExpr × String)) (body : TEExpr) : TETensor :=
  ⟨.computeBuf nm dims body, .computeStmt nm dims body⟩

/-- A `te.Placeholder`. `.data()` is `placeholder_data` below. -/
structure TEPlaceholder where
  nm : String
  ty : NNCType
  shape : List TEExpr
  deriving DecidableEq, Repr

def placeholder_data (p : TEPlaceholder) : TEVal :=
  .placeholderData p.nm p.ty p.shape

/-! ### FX graph model -/

/-- An FX node argument: a reference to another node (by name), a Python
scalar literal, or a nested tuple/list of arguments. -/
inductive Arg
  | ref (nm : String)
  | lit (s : PyScalar)
  | tup (l : List Arg)

/-- The `tensor_meta` annotation produced by shape propagation. -/
structure TensorMeta where
  shape : List Nat
  dtype : TorchDType
  deriving DecidableEq, Repr

/-- An FX graph node. `op` is one of `placeholder`, `call_function`,
`output`, `get_attr` (others hit the not-yet-implemented branch); `meta`
is `some` exactly when `'tensor_meta' in node.meta`. -/
structure FxNode where
  name : String
  op : String
  target : String
  args : List Arg
  kwargs : List (String × Arg)
  meta : Option TensorMeta

/-- A concrete torch tensor object: its shape, dtype, and an object
identity distinguishing distinct allocations. -/
structure Tensor where
  shape : List Nat
  dtype : TorchDType
  uid : Nat
  deriving DecidableEq, Repr

/-- A traced module: its graph (nodes in definition order) plus the
attribute table `fetch_attr` walks. -/
structure FxModule where
  graph : List FxNode
  attrs : List (String × Tensor)

def findNode (g : List FxNode) (nm : String) : Option FxNode :=
  g.find? (fun n => n.name = nm)

/-! ### Environment lookup and argument traversal -/

mutual

/-- `lookup_env` from the source: `map_aggregate` over an argument, sending
node references to their environment entry (`KeyError` if absent) and
leaving non-node leaves untouched. -/
def lookup_env (env : List (String × TEVal)) : Arg → Except CompileError TEVal
  | .ref nm =>
    match env.lookup nm with
    | some v => .ok v
    | none => .error .keyError
  | .lit s => .ok (.scalar s)
  | .tup l => do
    let vs ← lookup_env_list env l
    .ok (.tupV vs)

def lookup_env_list (env : List (String × TEVal)) : List Arg → Except CompileError (List TEVal)
  | [] => .ok []
  | a :: rest => do
    let v ← lookup_env env a
    let vs ← lookup_env_list env rest
    .ok (v :: vs)

end

/-- The per-leaf metadata computed for `inp_shapes` in `lower_function`:
`(process_shape(arg.meta['tensor_meta'].shape), dtype)` for nodes carrying
tensor metadata, `None` otherwise, with tuple structure preserved. -/
inductive InpMeta
  | noneM
  | pair (shape : List Nat) (dtype : TorchDType)
  | tupM (l : List InpMeta)

mutual

def inp_meta (g : List FxNode) : Arg → InpMeta
  | .ref nm =>
    match findNode g nm with
    | some n =>
      match n.meta with
      | some m => .pair (process_shape m.shape) m.dtype
      | none => .noneM
    | none => .noneM
  | .lit _ => .noneM
  | .tup l => .tupM (inp_meta_list g l)

def inp_meta_list (g : List FxNode) : List Arg → List InpMeta
  | [] => []
  | a :: rest => inp_meta g a :: inp_meta_list g rest

end

/-! ### Lowering rules -/

/-- `ones_like_lower`: a compute over the output dims whose body is the
constant `to_expr(1.0)`. -/
def ones_like_lower (nm : String) (out_shape : List Nat)
    (_inp_shapes : List InpMeta) (_args : List TEVal) : TETensor :=
  te_Compute nm (get_dim_args out_shape) (to_expr (.float 1))

/-- `dot_lower`: chain `te.lower('aten::mul', ...)` over the first
operand's shape and dtype, then `te.lower('aten::sum', ...)` over the
multiply's buffer, returning the sum's buffer and both statements. The
source indexes `inp_shapes[0][0]` / `inp_shapes[0][1]`, which fails at
runtime unless the first entry is a (shape, dtype) pair. -/
def dot_lower (_nm : String) (out_shape : List Nat)
    (inp_shapes : List InpMeta) (args : List TEVal) :
    Except CompileError (TEVal × List TEStmt) :=
  match inp_shapes with
  | .pair sh0 dt0 :: _ => do
    let ty ← get_nnc_type dt0
    let mul_te := te_lower "aten::mul" args (get_te_shapes sh0) ty
    let res := te_lower "aten::sum" [mul_te.buf] (get_te_shapes out_shape) ty
    .ok (res.buf, [mul_te.stmt, res.stmt])
  | _ => .error .pythonError

/-- `mv_lower`: declares an output buffer `C` of extent `N` and emits a
single `ExternalCall` to `nnc_aten_mv` over the two operand buffers. The
source destructures `N, M = inp_shapes[0][0]` and indexes `args[0]`,
`args[1]`, which fails at runtime otherwise. -/
def mv_lower (_nm : String) (_out_shape : List Nat)
    (inp_shapes : List InpMeta) (args : List TEVal) :
    Except CompileError (TEVal × List TEStmt) :=
  match args, inp_shapes with
  | a :: b :: _, .pair [n, _m] dt0 :: _ => do
    let ty ← get_nnc_type dt0
    let c := TEVal.bufHandle "C" (get_te_shapes [n]) ty
    .ok (c, [TEStmt.externalCall c "nnc_aten_mv" [a, b] []])
  | _, _ => .error .pythonError

/-- The `lowering_functions` registry keys (`torch.ops.aten.*`). -/
def lowering_function_keys : List String :=
  ["torch.ops.aten.ones_like", "torch.ops.aten.dot", "torch.ops.aten.mv"]

/-- The `func_to_aten` translation table for "virtual" operators. -/
def func_to_aten : List (String × String) :=
  [("operator.getitem", "torch.ops.aten.slice"),
   ("operator.add", "torch.ops.aten.add"),
   ("operator.mul", "torch.ops.aten.mul"),
   ("torch.mul", "torch.ops.aten.mul"),
   ("torch.sin", "torch.ops.aten.sin"),
   ("torch.cos", "torch.ops.aten.cos")]

/-- `op.__name__` for a `torch.ops.aten.X` object: the trailing component
of its dotted path. -/
def py_name (op : String) : String :=
  ((op.splitOn ".").getLast?).getD op

/-- `lower_function` from the source: compute `inp_shapes` over the node's
args, dispatch on the specialized registry, otherwise translate through
`func_to_aten` and fall back to `te.lower('aten::<name>', ...)` over the
node's processed output shape and dtype; a `te.Tensor` result is unpacked
into `(buf, [stmt])`. -/
def lower_function (g : List FxNode) (node : FxNode) (op : String)
    (nnc_args : List TEVal) (args : List Arg) :
    Except CompileError (TEVal × List TEStmt) :=
  match node.meta with
  | none => .error .keyError
  | some meta =>
    if op = "torch.ops.aten.ones_like" then
      .ok ((ones_like_lower node.name (process_shape meta.shape) (inp_meta_list g args) nnc_args).buf,
           [(ones_like_lower node.name (process_shape meta.shape) (inp_meta_list g args) nnc_args).stmt])
    else if op = "torch.ops.aten.dot" then
      dot_lower node.name (process_shape meta.shape) (inp_meta_list g args) nnc_args
    else if op = "torch.ops.aten.mv" then
      mv_lower node.name (process_shape meta.shape) (inp_meta_list g args) nnc_args
    else do
      let ty ← get_nnc_type meta.dtype
      .ok ((te_lower ("aten::" ++ py_name ((func_to_aten.lookup op).getD op)) nnc_args
              (get_te_shapes (process_shape meta.shape)) ty).buf,
           [(te_lower ("aten::" ++ py_name ((func_to_aten.lookup op).getD op)) nnc_args
              (get_te_shapes (process_shape meta.shape)) ty).stmt])

/-! ### The lowering driver -/

/-- The driver's mutable state across the node loop of `nnc_compile`. -/
structure DriverState where
  env : List (String × TEVal)
  inputs : List TEPlaceholder
  module_attrs : List FxNode
  compute_stmts : List TEStmt
  outs : Option (List TEVal × List (List Nat × TorchDType))

def initState : DriverState :=
  ⟨[], [], [], [], none⟩

/-- Resolve the metadata tuple recorded for one output argument
(`(i.meta['tensor_meta'].shape, i.meta['tensor_meta'].dtype)`; note: no
`process_shape` here, faithful to the source). -/
def output_meta (g : List FxNode) (a : Arg) :
    Except CompileError (List Nat × TorchDType) :=
  match a with
  | .ref nm =>
    match findNode g nm with
    | some n =>
      match n.meta with
      | some m => .ok (m.shape, m.dtype)
      | none => .error .keyError
    | none => .error .keyError
  | _ => .error .pythonError

/-- The argument normalization of the output branch: the source sets
`args = node.args` and replaces it by `args[0]` when that first element is
itself a tuple. -/
def output_arg_list (a0 : Arg) (rest : List Arg) : List Arg :=
  match a0 with
  | .tup l => l
  | _ => a0 :: rest

/-- One iteration of the node loop in `nnc_compile`, dispatching on
`node.op` exactly as the source's if/elif chain does. -/
def driverStep (g : List FxNode) (s : DriverState) (node : FxNode) :
    Except CompileError DriverState :=
  if node.op = "placeholder" then
    match node.meta with
    | none => .error .keyError
    | some m => do
      let ty ← get_nnc_type m.dtype
      let shapes := get_te_shapes m.shape
      let p : TEPlaceholder := ⟨node.name, ty, shapes⟩
      .ok { s with env := (node.name, placeholder_data p) :: s.env,
                   inputs := s.inputs ++ [p] }
  else if node.op = "call_function" then
    if node.meta.isSome then
      if node.kwargs.isEmpty = false then .error .kwargsNYI
      else do
        let nnc_args ← lookup_env_list s.env node.args
        let (buf, stmt) ← lower_function g node node.target nnc_args node.args
        .ok { s with compute_stmts := s.compute_stmts ++ stmt,
                     env := (node.name, buf) :: s.env }
    else if node.target = "getattr" ∨ node.target = "operator.getitem" then
      .ok s
    else
      .ok s
  else if node.op = "output" then
    match node.args with
    | [] => .error .pythonError
    | a0 :: restArgs => do
      let te_args ← lookup_env_list s.env (output_arg_list a0 restArgs)
      let metas ← (output_arg_list a0 restArgs).mapM (output_meta g)
      .ok { s with outs := some (te_args, metas) }
  else if node.op = "get_attr" then
    match node.meta with
    | none => .error .keyError
    | some m => do
      let ty ← get_nnc_type m.dtype
      let shapes := get_te_shapes (process_shape m.shape)
      let p : TEPlaceholder := ⟨node.name, ty, shapes⟩
      .ok { s with module_attrs := s.module_attrs ++ [node],
                   env := (node.name, placeholder_data p) :: s.env }
  else
    .error .notImplemented

/-- The full node loop. -/
def runDriver (g : List FxNode) : Except CompileError DriverState :=
  g.foldlM (driverStep g) initState

/-- `fetch_attr`: resolve a dotted attribute path on the traced module
(modelled as a lookup in the module's attribute table; a missing path
raises the descriptive `RuntimeError`). -/
def fetch_attr (m : FxModule) (target : String) : Except CompileError Tensor :=
  match m.attrs.lookup target with
  | some t => .ok t
  | none => .error .badAttr

/-- The artifacts `nnc_compile` fixes at code-generation time: the ordered
buffer-argument list handed to `te.construct_codegen`, the pre-allocated
default output tensors, and the fetched captured-state tensors. -/
structure Compiled where
  buffer_args : List TEVal
  alloc_results : List Tensor
  module_stuff : List Tensor

/-- `nnc_compile` after the node loop: build the codegen buffer-argument
list `[env[attr] for attr in module_attrs] + inputs + outs[0]`, allocate
default outputs from the recorded `(shape, dtype)` pairs, and fetch the
captured-state tensors. (Loop-nest construction, simplification and the
LLVM codegen are external calls that consume `buffer_args` unchanged.) -/
def nnc_compile (m : FxModule) : Except CompileError Compiled := do
  let s ← runDriver m.graph
  match s.outs with
  | none => .error .pythonError
  | some (outVals, outMetas) => do
    let attr_bufs ← s.module_attrs.mapM (fun n =>
      match s.env.lookup n.name with
      | some v => Except.ok v
      | none => Except.error CompileError.keyError)
    let buffer_args := attr_bufs ++ s.inputs.map placeholder_data ++ outVals
    let alloc_results := outMetas.enum.map (fun p => Tensor.mk p.2.1 p.2.2 p.1)
    let module_stuff ← s.module_attrs.mapM (fun n => fetch_attr m n.target)
    .ok ⟨buffer_args, alloc_results, module_stuff⟩

/-! ### The returned callable -/

/-- The value `f` returns: the single tensor when exactly one result,
otherwise the list (the source checks `len(results) == 1`). -/
inductive CallRet
  | single (t : Tensor)
  | listR (ts : List Tensor)

/-- One invocation of the compiled callable: the buffers passed to
`cg.call` (in order), the buffers the kernel writes (the trailing result
segment), and the Python return value. -/
structure CallRecord where
  passed : List Tensor
  written : List Tensor
  ret : Option CallRet

/-- The closure `f(*inps, out_tensors=None)` from the source. -/
def kernelCall (k : Compiled) (inps : List Tensor)
    (out_tensors : Option (List Tensor)) : CallRecord :=
  let results := match out_tensors with
    | none => k.alloc_results
    | some ts => ts
  { passed := k.module_stuff ++ inps ++ results
    written := results
    ret :=
      match out_tensors with
      | none =>
        some (match results with
          | [r] => .single r
          | _ => .listR results)
      | some _ => none }

/-! ### The truncation utility -/

mutual

/-- The argument-transform `lambda x: env[x.name]` that `node_copy` applies
to every node-reference argument (`KeyError` on a missing entry). -/
def remap_arg (env : List (String × String)) : Arg → Except CompileError Arg
  | .ref nm =>
    match env.lookup nm with
    | some nm2 => .ok (.ref nm2)
    | none => .error .keyError
  | .lit s => .ok (.lit s)
  | .tup l => do
    let l2 ← remap_arg_list env l
    .ok (.tup l2)

def remap_arg_list (env : List (String × String)) : List Arg → Except CompileError (List Arg)
  | [] => .ok []
  | a :: rest => do
    let a2 ← remap_arg env a
    let rest2 ← remap_arg_list env rest
    .ok (a2 :: rest2)

end

/-- Rewiring of a single keyword argument during `node_copy`. -/
def copy_kwarg (env : List (String × String)) (p : String × Arg) :
    Except CompileError (String × Arg) := do
  let a2 ← remap_arg env p.2
  .ok (p.1, a2)

/-- `new_graph.node_copy(node, lambda x: env[x.name])`: same name, op,
target and metadata; argument references rewired through `env`. -/
def node_copy (env : List (String × String)) (n : FxNode) : Except CompileError FxNode := do
  let args2 ← remap_arg_list env n.args
  let kwargs2 ← n.kwargs.mapM (copy_kwarg env)
  .ok { n with args := args2, kwargs := kwargs2 }

/-- The node `new_graph.output(x)` appends: an `output`-op node whose sole
argument references `x`. -/
def output_node (nm : String) : FxNode :=
  { name := "output", op := "output", target := "output",
    args := [.ref nm], kwargs := [], meta := none }

/-- The loop body of `truncate`: copy nodes in definition order, growing
the identity map; after the `k`-th copy, append the output marker
referencing it and stop. -/
def truncate_go : List FxNode → Nat → List (String × String) → Nat →
    Except CompileError (List FxNode)
  | [], _, _, _ => .ok []
  | node :: rest, cnt, env, k => do
    let newNode ← node_copy env node
    let env2 := (node.name, newNode.name) :: env
    if cnt + 1 = k then
      .ok [newNode, output_node newNode.name]
    else do
      let tail ← truncate_go rest (cnt + 1) env2 k
      .ok (newNode :: tail)

/-- `truncate(model, k)` on an already-traced graph. -/
def truncate (g : List FxNode) (k : Nat) : Except CompileError (List FxNode) :=
  truncate_go g 0 [] k

/-! ### Dead-node elimination -/

mutual

/-- All node names referenced (at any tuple depth) by an argument. -/
def argRefs : Arg → List String
  | .ref nm => [nm]
  | .lit _ => []
  | .tup l => argRefsList l

def argRefsList : List Arg → List String
  | [] => []
  | a :: rest => argRefs a ++ argRefsList rest

end

/-- All node names a node consumes (args and kwargs), i.e. the nodes whose
`users` sets it belongs to. -/
def nodeRefs (n : FxNode) : List String :=
  argRefsList n.args ++ argRefsList (n.kwargs.map Prod.snd)

/-- `len(node.users)` for the node named `nm` in the (current) graph:
the number of nodes referencing it. -/
def users_count (g : List FxNode) (nm : String) : Nat :=
  (g.filter (fun m => nm ∈ nodeRefs m)).length

/-- The loop of `remove_args`: visit the original nodes in definition
order; erase a visited node from the current graph when it has no users
there and is not the output marker. -/
def remove_args_go : List FxNode → List FxNode → List FxNode
  | cur, [] => cur
  | cur, n :: rest =>
    if users_count cur n.name = 0 ∧ n.op ≠ "output" then
      remove_args_go (cur.eraseP (fun m => m.name == n.name)) rest
    else
      remove_args_go cur rest

/-- `remove_args` on an already-traced graph. -/
def remove_args (g : List FxNode) : List FxNode :=
  remove_args_go g g

/-! ### Executing a graph (reference semantics for dead-code elimination) -/

/-- Runtime values of an FX graph execution. -/
inductive Value
  | scalar (s : PyScalar)
  | tupV (l : List Value)

mutual

def evalArg (env : List (String × Value)) : Arg → Value
  | .ref nm => (env.lookup nm).getD (.scalar (.int 0))
  | .lit s => .scalar s
  | .tup l => .tupV (evalArgList env l)

def evalArgList (env : List (String × Value)) : List Arg → List Value
  | [] => []
  | a :: rest => evalArg env a :: evalArgList env rest

end

/-- The value one non-output node produces, given an operator
interpretation `sem`, the placeholder inputs and the attribute table. -/
def evalNodeVal (sem : String → List Value → Value) (inputs : String → Value)
    (attrs : String → Value) (env : List (String × Value)) (n : FxNode) : Value :=
  if n.op = "placeholder" then inputs n.name
  else if n.op = "get_attr" then attrs n.target
  else if n.op = "call_function" then sem n.target (evalArgList env n.args)
  else .scalar (.int 0)

/-- One step of running a graph: output markers bind nothing, every other
node binds its value. -/
def runStep (sem : String → List Value → Value) (inputs : String → Value)
    (attrs : String → Value) (env : List (String × Value)) (n : FxNode) :
    List (String × Value) :=
  if n.op = "output" then env
  else (n.name, evalNodeVal sem inputs attrs env n) :: env

/-- Run a graph in definition order, binding each non-output node's value. -/
def runGraph (sem : String → List Value → Value) (inputs : String → Value)
    (attrs : String → Value) (g : List FxNode) : List (String × Value) :=
  g.foldl (runStep sem inputs attrs) []

/-- The output of executing a graph: the values of the (first) output
node's arguments. -/
def evalOutput (sem : String → List Value → Value) (inputs : String → Value)
    (attrs : String → Value) (g : List FxNode) : Option (List Value) :=
  match g.find? (fun n => n.op = "output") with
  | some n => some (evalArgList (runGraph sem inputs attrs g) n.args)
  | none => none

/-! ### Well-formedness of traced graphs -/

def graphNames (g : List FxNode) : List String :=
  g.map (fun n => n.name)

/-- A traced FX graph: node names are distinct, and every node only
references nodes defined strictly before it. -/
def WFGraph (g : List FxNode) : Prop :=
  (graphNames g).Nodup ∧
  ∀ i : Fin g.length, ∀ nm ∈ nodeRefs (g.get i), nm ∈ graphNames (g.take i.val)

/-! ### C1: the broadcast-index helper -/

/-- C1. `index_or_broadcast` keeps exactly the output indices whose axis
lies below the operand's rank (so the result has
`min (rank) (number of output indices)` entries); below the rank, a unit
extent yields the constant operand index 0 and any other extent passes the
output index through unchanged; consequently the result does not depend on
the output indices supplied along unit-extent (broadcast) axes. -/
theorem C1_index_or_broadcast_spec (shape : List Nat) (args : List TEExpr) :
    (index_or_broadcast shape args).length = min shape.length args.length ∧
    (∀ i : Nat, i < shape.length → i < args.length →
      (index_or_broadcast shape args).get? i =
        some (if shape.getD i 0 = 1 then TEExpr.intE 0
              else args.getD i (TEExpr.intE 0))) ∧
    (∀ args' : List TEExpr, args'.length = args.length →
      (∀ i : Nat, i < args.length → shape.getD i 0 ≠ 1 →
        args.getD i (TEExpr.intE 0) = args'.getD i (TEExpr.intE 0)) →
      index_or_broadcast shape args = index_or_broadcast shape args') := by
  refine ⟨?_, ?_, ?_⟩
  · simpa using index_or_broadcast_go_length shape args 0
  · intro i h1 h2
    simpa using index_or_broadcast_go_get? shape args 0 i (by omega) h2
  · intro args' hlen hagree
    apply List.ext_get?
    intro i
    by_cases hi : i < min shape.length args.length
    · have e1 := index_or_broadcast_go_get? shape args 0 i (by omega) (by omega)
      have e2 := index_or_broadcast_go_get? shape args' 0 i (by omega) (by omega)
      simp only [Nat.zero_add] at e1 e2
      show (index_or_broadcast shape args).get? i = (index_or_broadcast shape args').get? i
      simp only [index_or_broadcast]
      rw [e1, e2]
      by_cases h1 : shape.getD i 0 = 1
      · rw [if_pos h1, if_pos h1]
      · simp only [if_neg h1]
        rw [hagree i (by omega) h1]
    · have l1 := index_or_broadcast_go_length shape args 0
      have l2 := index_or_broadcast_go_length shape args' 0
      show (index_or_broadcast shape args).get? i = (index_or_broadcast shape args').get? i
      simp only [index_or_broadcast]
      have n1 : (index_or_broadcast_go shape 0 args).get? i = none := by
        rw [List.get?_eq_none]
        omega
      have n2 : (index_or_broadcast_go shape 0 args').get? i = none := by
        rw [List.get?_eq_none]
        omega
      rw [n1, n2]

/-- C1 witness: a rank-2 operand broadcast on axis 1, with three output
indices (the third is skipped); changing the output index on the broadcast
axis leaves the result unchanged. -/
theorem C1_index_or_broadcast_witness :
    (index_or_broadcast [2, 1] [TEExpr.var "a", TEExpr.var "b", TEExpr.var "c"]).length =
      min 2 3 ∧
    (index_or_broadcast [2, 1] [TEExpr.var "a", TEExpr.var "b", TEExpr.var "c"]).get? 1 =
      some (TEExpr.intE 0) ∧
    index_or_broadcast [2, 1] [TEExpr.var "a", TEExpr.var "b", TEExpr.var "c"] =
      index_or_broadcast [2, 1] [TEExpr.var "a", TEExpr.var "x", TEExpr.var "c"] := by
  obtain ⟨h1, h2, h3⟩ :=
    C1_index_or_broadcast_spec [2, 1] [TEExpr.var "a", TEExpr.var "b", TEExpr.var "c"]
  refine ⟨by simpa using h1, ?_, ?_⟩
  · have := h2 1 (by decide) (by decide)
    simpa using this
  · refine h3 [TEExpr.var "a", TEExpr.var "x", TEExpr.var "c"] rfl ?_
    intro i hi hne
    have hi3 : i < 3 := by simpa using hi
    interval_cases i
    · rfl
    · exact absurd rfl hne
    · rfl

/-! ### Which errors each fallible piece can raise -/

theorem get_nnc_type_error {dt : TorchDType} {e : CompileError}
    (h : get_nnc_type dt = .error e) : e = .dtypeNYI := by
  cases dt <;> simp only [get_nnc_type] at h
  all_goals first
    | (injection h with h; subst h; rfl)
    | cases h

mutual

theorem lookup_env_error :
    ∀ (env : List (String × TEVal)) (a : Arg) (e : CompileError),
      lookup_env env a = .error e → e = .keyError
  | env, .ref nm, e, h => by
    simp only [lookup_env] at h
    cases hl : List.lookup nm env with
    | some v => rw [hl] at h; cases h
    | none => rw [hl] at h; exact (Except.error.injEq _ _ ▸ h :).symm
  | env, .lit s, e, h => by
    simp only [lookup_env] at h
    cases h
  | env, .tup l, e, h => by
    simp only [lookup_env, bind, Except.bind] at h
    cases hl : lookup_env_list env l with
    | ok vs => rw [hl] at h; cases h
    | error e2 =>
      rw [hl] at h
      have he : e2 = e := (Except.error.injEq _ _ ▸ h :)
      exact he ▸ lookup_env_list_error env l e2 hl

theorem lookup_env_list_error :
    ∀ (env : List (String × TEVal)) (l : List Arg) (e : CompileError),
      lookup_env_list env l = .error e → e = .keyError
  | env, [], e, h => by
    simp only [lookup_env_list] at h
    cases h
  | env, a :: rest, e, h => by
    simp only [lookup_env_list, bind, Except.bind] at h
    cases ha : lookup_env env a with
    | error e2 =>
      rw [ha] at h
      have he : e2 = e := (Except.error.injEq _ _ ▸ h :)
      exact he ▸ lookup_env_error env a e2 ha
    | ok v =>
      rw [ha] at h
      cases hr : lookup_env_list env rest with
      | error e3 =>
        rw [hr] at h
        have he : e3 = e := (Except.error.injEq _ _ ▸ h :)
        exact he ▸ lookup_env_list_error env rest e3 hr
      | ok vs => rw [hr] at h; cases h

end

theorem dot_lower_error {nm : String} {os : List Nat} {is : List InpMeta}
    {args : List TEVal} {e : CompileError}
    (h : dot_lower nm os is args = .error e) : e = .dtypeNYI ∨ e = .pythonError := by
  unfold dot_lower at h
  split at h
  · rename_i sh0 dt0 rest
    simp only [bind, Except.bind] at h
    cases hg : get_nnc_type dt0 with
    | error e2 =>
      rw [hg] at h
      have he : e2 = e := (Except.error.injEq _ _ ▸ h :)
      exact Or.inl (he ▸ get_nnc_type_error hg)
    | ok ty => rw [hg] at h; cases h
  · exact Or.inr (Except.error.injEq _ _ ▸ h :).symm

theorem mv_lower_error {nm : String} {os : List Nat} {is : List InpMeta}
    {args : List TEVal} {e : CompileError}
    (h : mv_lower nm os is args = .error e) : e = .dtypeNYI ∨ e = .pythonError := by
  unfold mv_lower at h
  split at h
  · rename_i a b resta n m dt0 restm
    simp only [bind, Except.bind] at h
    cases hg : get_nnc_type dt0 with
    | error e2 =>
      rw [hg] at h
      have he : e2 = e := (Except.error.injEq _ _ ▸ h :)
      exact Or.inl (he ▸ get_nnc_type_error hg)
    | ok ty => rw [hg] at h; cases h
  · exact Or.inr (Except.error.injEq _ _ ▸ h :).symm

theorem lower_function_error {g : List FxNode} {node : FxNode} {op : String}
    {nnc_args : List TEVal} {args : List Arg} {e : CompileError}
    (h : lower_function g node op nnc_args args = .error e) :
    e = .keyError ∨ e = .dtypeNYI ∨ e = .pythonError := by
  unfold lower_function at h
  split at h
  · injection h with h
    subst h
    exact Or.inl rfl
  · rename_i meta heq
    split at h
    · cases h
    · split at h
      · rcases dot_lower_error h with h1 | h1
        · exact Or.inr (Or.inl h1)
        · exact Or.inr (Or.inr h1)
      · split at h
        · rcases mv_lower_error h with h1 | h1
          · exact Or.inr (Or.inl h1)
          · exact Or.inr (Or.inr h1)
        · simp only [bind, Except.bind] at h
          cases hg : get_nnc_type meta.dtype with
          | error e2 =>
            rw [hg] at h
            have he : e2 = e := (Except.error.injEq _ _ ▸ h :)
            exact Or.inr (Or.inl (he ▸ get_nnc_type_error hg))
          | ok ty => rw [hg] at h; cases h

theorem output_meta_error {g : List FxNode} {a : Arg} {e : CompileError}
    (h : output_meta g a = .error e) : e = .keyError ∨ e = .pythonError := by
  unfold output_meta at h
  repeat' split at h
  all_goals try cases h
  all_goals first
    | exact Or.inl rfl
    | exact Or.inr rfl

theorem mapM_output_meta_error {g : List FxNode} :
    ∀ {l : List Arg} {e : CompileError},
      l.mapM (output_meta g) = .error e → e = .keyError ∨ e = .pythonError := by
  intro l
  induction l with
  | nil =>
    intro e h
    rw [List.mapM_nil] at h
    cases h
  | cons a rest ih =>
    intro e h
    rw [List.mapM_cons] at h
    simp only [bind, Except.bind] at h
    cases ha : output_meta g a with
    | error e2 =>
      rw [ha] at h
      have he : e2 = e := (Except.error.injEq _ _ ▸ h :)
      exact he ▸ output_meta_error ha
    | ok v =>
      rw [ha] at h
      cases hr : rest.mapM (output_meta g) with
      | error e3 =>
        rw [hr] at h
        have he : e3 = e := (Except.error.injEq _ _ ▸ h :)
        exact he ▸ ih hr
      | ok vs =>
        rw [hr] at h
        cases h

/-- Which node kinds can raise which errors in one driver step. -/
theorem driverStep_error_class {g : List FxNode} {s : DriverState} {n : FxNode}
    {e : CompileError} (h : driverStep g s n = .error e) :
    (n.op = "placeholder" ∧ (e = .keyError ∨ e = .dtypeNYI)) ∨
    (n.op = "call_function" ∧ (e = .kwargsNYI ∨ e = .keyError ∨ e = .dtypeNYI ∨ e = .pythonError) ∧
      (e = .kwargsNYI → n.meta.isSome = true ∧ n.kwargs ≠ [])) ∨
    (n.op = "output" ∧ (e = .keyError ∨ e = .pythonError)) ∨
    (n.op = "get_attr" ∧ (e = .keyError ∨ e = .dtypeNYI)) ∨
    (n.op ≠ "placeholder" ∧ n.op ≠ "call_function" ∧ n.op ≠ "output" ∧ n.op ≠ "get_attr" ∧
      e = .notImplemented) := by
  unfold driverStep at h
  by_cases hop1 : n.op = "placeholder"
  · rw [if_pos hop1] at h
    refine Or.inl ⟨hop1, ?_⟩
    split at h
    · cases h
      exact Or.inl rfl
    · rename_i m heq
      simp only [bind, Except.bind] at h
      cases hg : get_nnc_type m.dtype with
      | error e2 =>
        simp only [hg] at h
        cases h
        exact Or.inr (get_nnc_type_error hg)
      | ok ty =>
        simp only [hg] at h
        cases h
  · rw [if_neg hop1] at h
    by_cases hop2 : n.op = "call_function"
    · rw [if_pos hop2] at h
      by_cases hms : n.meta.isSome = true
      · rw [if_pos hms] at h
        by_cases hkw : n.kwargs.isEmpty = false
        · rw [if_pos hkw] at h
          cases h
          refine Or.inr (Or.inl ⟨hop2, Or.inl rfl, fun _ => ⟨hms, ?_⟩⟩)
          intro hnil
          rw [hnil] at hkw
          simp at hkw
        · rw [if_neg hkw] at h
          simp only [bind, Except.bind] at h
          cases hl : lookup_env_list s.env n.args with
          | error e2 =>
            simp only [hl] at h
            cases h
            have hk := lookup_env_list_error s.env n.args _ hl
            refine Or.inr (Or.inl ⟨hop2, Or.inr (Or.inl hk), fun hc => ?_⟩)
            rw [hk] at hc
            cases hc
          | ok vs =>
            simp only [hl] at h
            cases hlf : lower_function g n n.target vs n.args with
            | error e3 =>
              simp only [hlf] at h
              cases h
              rcases lower_function_error hlf with h1 | h1 | h1
              · refine Or.inr (Or.inl ⟨hop2, Or.inr (Or.inl h1), fun hc => ?_⟩)
                rw [h1] at hc
                cases hc
              · refine Or.inr (Or.inl ⟨hop2, Or.inr (Or.inr (Or.inl h1)), fun hc => ?_⟩)
                rw [h1] at hc
                cases hc
              · refine Or.inr (Or.inl ⟨hop2, Or.inr (Or.inr (Or.inr h1)), fun hc => ?_⟩)
                rw [h1] at hc
                cases hc
            | ok p =>
              obtain ⟨buf, stmt⟩ := p
              simp only [hlf] at h
              cases h
      · rw [if_neg hms] at h
        split at h
        · cases h
        · cases h
    · rw [if_neg hop2] at h
      by_cases hop3 : n.op = "output"
      · rw [if_pos hop3] at h
        refine Or.inr (Or.inr (Or.inl ⟨hop3, ?_⟩))
        split at h
        · cases h
          exact Or.inr rfl
        · rename_i a0 restArgs heq
          simp only [bind, Except.bind] at h
          cases hl : lookup_env_list s.env (output_arg_list a0 restArgs) with
          | error e2 =>
            simp only [hl] at h
            cases h
            exact Or.inl (lookup_env_list_error _ _ _ hl)
          | ok te_args =>
            simp only [hl] at h
            cases hm2 : (output_arg_list a0 restArgs).mapM (output_meta g) with
            | error e3 =>
              simp only [hm2] at h
              cases h
              exact mapM_output_meta_error hm2
            | ok metas =>
              simp only [hm2] at h
              cases h
      · rw [if_neg hop3] at h
        by_cases hop4 : n.op = "get_attr"
        · rw [if_pos hop4] at h
          refine Or.inr (Or.inr (Or.inr (Or.inl ⟨hop4, ?_⟩)))
          split at h
          · cases h
            exact Or.inl rfl
          · rename_i m heq
            simp only [bind, Except.bind] at h
            cases hg : get_nnc_type m.dtype with
            | error e2 =>
              simp only [hg] at h
              cases h
              exact Or.inr (get_nnc_type_error hg)
            | ok ty =>
              simp only [hg] at h
              cases h
        · rw [if_neg hop4] at h
          cases h
          exact Or.inr (Or.inr (Or.inr (Or.inr ⟨hop1, hop2, hop3, hop4, rfl⟩)))

/-! ### C7: keyword-argument rejection -/

/-- C7 (amended). For a function-call node carrying tensor metadata, the
driver raises the keyword-arguments error exactly when the node has
keyword arguments, before any lowering of the node; the error aborts the
rest of the node loop with no recovery. (The original claim's "raises a
fatal error iff kwargs" fails: a kwargs-free node can still abort
compilation, e.g. on an unsupported dtype.) -/
theorem C7_kwargs_fatal (g : List FxNode) (s : DriverState) (n : FxNode) (m : TensorMeta)
    (hop : n.op = "call_function") (hm : n.meta = some m) :
    (n.kwargs ≠ [] → driverStep g s n = .error .kwargsNYI) ∧
    (driverStep g s n = .error .kwargsNYI → n.kwargs ≠ []) ∧
    (∀ rest : List FxNode, n.kwargs ≠ [] →
      (n :: rest).foldlM (driverStep g) s = .error .kwargsNYI) := by
  have hstep : n.kwargs ≠ [] → driverStep g s n = .error .kwargsNYI := by
    intro hne
    have hkw : n.kwargs.isEmpty = false := by
      cases hk : n.kwargs with
      | nil => exact absurd hk hne
      | cons a l => rfl
    simp [driverStep, hop, hm, hkw]
  refine ⟨hstep, fun herr => ?_, fun rest hne => ?_⟩
  · rcases driverStep_error_class herr with ⟨_, hx | hx⟩ | ⟨_, _, h3⟩ |
      ⟨_, hx | hx⟩ | ⟨_, hx | hx⟩ | ⟨_, _, _, _, hx⟩
    · cases hx
    · cases hx
    · exact (h3 rfl).2
    · cases hx
    · cases hx
    · cases hx
    · cases hx
    · cases hx
  · rw [List.foldlM_cons, hstep hne]
    rfl

/-- C7 counterexample: a function-call node with tensor metadata and NO
keyword arguments on which compilation still raises a fatal error (its
dtype is unsupported by `get_nnc_type`), refuting "raises iff kwargs". -/
def kwargfree_int_node : FxNode :=
  { name := "t", op := "call_function", target := "torch.ops.aten.tanh",
    args := [], kwargs := [], meta := some ⟨[2], .int32⟩ }

theorem C7_kwargs_counterexample :
    driverStep [] initState kwargfree_int_node = .error .dtypeNYI ∧
    kwargfree_int_node.kwargs = [] :=
  ⟨rfl, rfl⟩

/-- C7 witness: a node with one keyword argument is rejected with the
kwargs error, and conversely that error implies kwargs were present. -/
def kwarg_node : FxNode :=
  { name := "k", op := "call_function", target := "torch.sin",
    args := [], kwargs := [("alpha", .lit (.int 1))], meta := some ⟨[2], .float⟩ }

theorem C7_kwargs_witness :
    driverStep [] initState kwarg_node = .error .kwargsNYI ∧
    (driverStep [] initState kwarg_node = .error .kwargsNYI → kwarg_node.kwargs ≠ []) := by
  obtain ⟨h1, h2, _⟩ := C7_kwargs_fatal [] initState kwarg_node ⟨[2], .float⟩ rfl rfl
  exact ⟨h1 (by simp [kwarg_node]), h2⟩

/-! ### C9: silent skip of metadata-free calls -/

/-- C9. A function-call node without tensor metadata whose target is
neither `getattr` nor `operator.getitem` is skipped silently (no error,
no environment entry, no statements: the state is returned unchanged);
moreover the not-yet-implemented error is only reachable for node kinds
other than placeholder / call_function / output / get_attr. -/
theorem C9_skip_meta_free_call (g : List FxNode) (s : DriverState) (n : FxNode)
    (hop : n.op = "call_function") (hm : n.meta = none)
    (ht1 : n.target ≠ "getattr") (ht2 : n.target ≠ "operator.getitem") :
    driverStep g s n = .ok s ∧
    (∀ (g' : List FxNode) (s' : DriverState) (n' : FxNode),
      driverStep g' s' n' = .error .notImplemented →
      n'.op ≠ "placeholder" ∧ n'.op ≠ "call_function" ∧
      n'.op ≠ "output" ∧ n'.op ≠ "get_attr") := by
  constructor
  · simp [driverStep, hop, hm, ht1, ht2]
  · intro g' s' n' herr
    rcases driverStep_error_class herr with ⟨_, hx | hx⟩ | ⟨_, hx, _⟩ |
      ⟨_, hx | hx⟩ | ⟨_, hx | hx⟩ | ⟨a, b, c, d, _⟩
    · cases hx
    · cases hx
    · rcases hx with hx | hx | hx | hx <;> cases hx
    · cases hx
    · cases hx
    · cases hx
    · cases hx
    · exact ⟨a, b, c, d⟩

/-- C9 witness: a metadata-free call to an unrelated target is a no-op. -/
def meta_free_node : FxNode :=
  { name := "g0", op := "call_function", target := "builtins.len",
    args := [], kwargs := [], meta := none }

theorem C9_skip_witness : driverStep [] initState meta_free_node = .ok initState :=
  (C9_skip_meta_free_call [] initState meta_free_node rfl rfl
    (by decide) (by decide)).1

/-! ### C8: the dot-product composite rule -/

/-- C8. `dot_lower` chains an element-wise multiply over the first
operand's shape and dtype into a reduction-sum over the multiply's buffer
at the output shape, returning the sum's buffer and exactly the two
statements `[multiply, sum]` in that order. -/
theorem C8_dot_lower_spec (nm : String) (out_shape sh0 : List Nat) (dt0 : TorchDType)
    (rest : List InpMeta) (args : List TEVal) (ty : NNCType)
    (hty : get_nnc_type dt0 = .ok ty) :
    dot_lower nm out_shape (.pair sh0 dt0 :: rest) args =
      .ok ((te_lower "aten::sum" [(te_lower "aten::mul" args (get_te_shapes sh0) ty).buf]
              (get_te_shapes out_shape) ty).buf,
           [(te_lower "aten::mul" args (get_te_shapes sh0) ty).stmt,
            (te_lower "aten::sum" [(te_lower "aten::mul" args (get_te_shapes sh0) ty).buf]
              (get_te_shapes out_shape) ty).stmt]) := by
  simp [dot_lower, hty, bind, Except.bind]

/-- C8 witness: the composite rule on concrete one-dimensional operands. -/
theorem C8_dot_lower_witness :
    dot_lower "d" [1] [.pair [3] .float] [TEVal.bufHandle "A" [] .Float] =
      .ok ((te_lower "aten::sum" [(te_lower "aten::mul" [TEVal.bufHandle "A" [] .Float]
              (get_te_shapes [3]) .Float).buf] (get_te_shapes [1]) .Float).buf,
           [(te_lower "aten::mul" [TEVal.bufHandle "A" [] .Float]
              (get_te_shapes [3]) .Float).stmt,
            (te_lower "aten::sum" [(te_lower "aten::mul" [TEVal.bufHandle "A" [] .Float]
              (get_te_shapes [3]) .Float).buf] (get_te_shapes [1]) .Float).stmt]) :=
  C8_dot_lower_spec "d" [1] [3] .float [] [TEVal.bufHandle "A" [] .Float] .Float rfl

/-! ### C10: calls with caller-supplied output buffers -/

/-- C10. When the caller supplies an output-buffer list, the kernel writes
exactly into those buffers, the callable returns `None`, the buffers are
passed after the captured-state tensors and the inputs, and any buffer not
in the supplied list — in particular any pre-allocated default output
buffer not handed in — is left unwritten. -/
theorem C10_out_tensors_frame (k : Compiled) (inps ts : List Tensor) :
    (kernelCall k inps (some ts)).written = ts ∧
    (kernelCall k inps (some ts)).ret = none ∧
    (kernelCall k inps (some ts)).passed = k.module_stuff ++ inps ++ ts ∧
    (∀ b : Tensor, b ∉ ts → b ∉ (kernelCall k inps (some ts)).written) := by
  refine ⟨rfl, rfl, rfl, ?_⟩
  intro b hb
  simpa [kernelCall] using hb

/-- C10 witness: a concrete invocation with one caller buffer leaves the
distinct pre-allocated default buffer unwritten and returns `None`. -/
def k10 : Compiled :=
  ⟨[], [⟨[1], .float, 0⟩], []⟩

theorem C10_out_tensors_witness :
    (kernelCall k10 [] (some [⟨[1], .float, 7⟩])).written = [⟨[1], .float, 7⟩] ∧
    (kernelCall k10 [] (some [⟨[1], .float, 7⟩])).ret = none ∧
    (⟨[1], .float, 0⟩ : Tensor) ∉ (kernelCall k10 [] (some [⟨[1], .float, 7⟩])).written := by
  obtain ⟨h1, h2, _h3, h4⟩ := C10_out_tensors_frame k10 [] [⟨[1], .float, 7⟩]
  exact ⟨h1, h2, h4 _ (by decide)⟩

/-! ### C5: zero-rank shape promotion -/

/-- C5. `process_shape` maps the empty shape to `[1]` and is the identity
on every non-empty shape; the promotion is applied to captured-state
(get_attr) node shapes, to the output shape fed to the generic lowering,
and to every operand shape recorded in `inp_shapes`. -/
theorem C5_process_shape_spec :
    (process_shape [] = [1]) ∧
    (∀ x : List Nat, x ≠ [] → process_shape x = x) ∧
    (∀ (g : List FxNode) (s : DriverState) (n : FxNode) (m : TensorMeta) (ty : NNCType),
      n.op = "get_attr" → n.meta = some m → get_nnc_type m.dtype = .ok ty →
      driverStep g s n = .ok { s with
        module_attrs := s.module_attrs ++ [n],
        env := (n.name,
          TEVal.placeholderData n.name ty (get_te_shapes (process_shape m.shape))) :: s.env }) ∧
    (∀ (g : List FxNode) (node : FxNode) (op : String) (nnc_args : List TEVal)
        (args : List Arg) (m : TensorMeta) (ty : NNCType),
      node.meta = some m →
      op ≠ "torch.ops.aten.ones_like" → op ≠ "torch.ops.aten.dot" → op ≠ "torch.ops.aten.mv" →
      get_nnc_type m.dtype = .ok ty →
      lower_function g node op nnc_args args =
        .ok ((te_lower ("aten::" ++ py_name ((func_to_aten.lookup op).getD op)) nnc_args
                (get_te_shapes (process_shape m.shape)) ty).buf,
             [(te_lower ("aten::" ++ py_name ((func_to_aten.lookup op).getD op)) nnc_args
                (get_te_shapes (process_shape m.shape)) ty).stmt])) ∧
    (∀ (g : List FxNode) (nm : String) (n2 : FxNode) (m2 : TensorMeta),
      findNode g nm = some n2 → n2.meta = some m2 →
      inp_meta g (.ref nm) = .pair (process_shape m2.shape) m2.dtype) := by
  refine ⟨rfl, ?_, ?_, ?_, ?_⟩
  · intro x hx
    simp [process_shape, List.length_eq_zero, hx]
  · intro g s n m ty hop hm hty
    simp [driverStep, hop, hm, hty, bind, Except.bind, placeholder_data]
  · intro g node op nnc_args args m ty hm h1 h2 h3 hty
    simp [lower_function, hm, h1, h2, h3, hty, bind, Except.bind]
  · intro g nm n2 m2 hf hm2
    simp [inp_meta, hf, hm2]

/-- C5 witness: the promotion on concrete inputs — the empty shape becomes
`[1]`, a non-empty shape passes through, a zero-rank captured-state node is
registered with the promoted shape, the fallback lowering of a zero-rank
node uses the promoted output shape, and a zero-rank operand's recorded
metadata is promoted. -/
def zr_attr_node : FxNode :=
  { name := "w", op := "get_attr", target := "w", args := [], kwargs := [],
    meta := some ⟨[], .float⟩ }

def zr_call_node : FxNode :=
  { name := "s0", op := "call_function", target := "torch.sin", args := [.ref "w"],
    kwargs := [], meta := some ⟨[], .float⟩ }

theorem C5_process_shape_witness :
    (process_shape [] = [1]) ∧
    (process_shape [5] = [5]) ∧
    (driverStep [] initState zr_attr_node = .ok { initState with
      module_attrs := initState.module_attrs ++ [zr_attr_node],
      env := ("w", TEVal.placeholderData "w" .Float (get_te_shapes (process_shape []))) ::
        initState.env }) ∧
    (lower_function [] zr_call_node "torch.sin" [] [] =
      .ok ((te_lower ("aten::" ++ py_name ((func_to_aten.lookup "torch.sin").getD "torch.sin")) []
              (get_te_shapes (process_shape [])) .Float).buf,
           [(te_lower ("aten::" ++ py_name ((func_to_aten.lookup "torch.sin").getD "torch.sin")) []
              (get_te_shapes (process_shape [])) .Float).stmt])) ∧
    (inp_meta [zr_attr_node] (.ref "w") = .pair (process_shape []) .float) := by
  obtain ⟨h1, h2, h3, h4, h5⟩ := C5_process_shape_spec
  refine ⟨h1, h2 [5] (by decide), ?_, ?_, ?_⟩
  · exact h3 [] initState zr_attr_node ⟨[], .float⟩ .Float rfl rfl rfl
  · exact h4 [] zr_call_node "torch.sin" [] [] ⟨[], .float⟩ .Float rfl
      (by decide) (by decide) (by decide) rfl
  · exact h5 [zr_attr_node] "w" zr_attr_node ⟨[], .float⟩ rfl rfl

/-! ### A concrete module that compiles end to end -/

def ex_w : Tensor := ⟨[], .float, 100⟩

def ex_attr_node : FxNode :=
  { name := "w", op := "get_attr", target := "w", args := [], kwargs := [],
    meta := some ⟨[], .float⟩ }

def ex_a_node : FxNode :=
  { name := "a", op := "placeholder", target := "a", args := [], kwargs := [],
    meta := some ⟨[5], .float⟩ }

def ex_cos_node : FxNode :=
  { name := "c", op := "call_function", target := "torch.cos", args := [.ref "a"],
    kwargs := [], meta := some ⟨[5], .float⟩ }

def ex_mul_node : FxNode :=
  { name := "m1", op := "call_function", target := "operator.mul",
    args := [.ref "c", .ref "w"], kwargs := [], meta := some ⟨[5], .float⟩ }

def ex_out_node : FxNode :=
  { name := "output", op := "output", target := "output", args := [.ref "m1"],
    kwargs := [], meta := none }

def ex_mod : FxModule :=
  ⟨[ex_attr_node, ex_a_node, ex_cos_node, ex_mul_node, ex_out_node], [("w", ex_w)]⟩

def ex_compiled : Compiled :=
  ((nnc_compile ex_mod).toOption).getD ⟨[], [], []⟩

def ex_state : DriverState :=
  ((runDriver ex_mod.graph).toOption).getD initState

/-! ### C6: calls without caller-supplied output buffers -/

/-- C6. When the output-buffer list is omitted, the callable writes into
the default output buffers pre-allocated at compile time from the recorded
output `(shape, dtype)` pairs, passes them after the captured-state tensors
and the inputs, and returns the single tensor when there is exactly one
output and the list otherwise. -/
theorem C6_default_outputs (m : FxModule) (k : Compiled) (s : DriverState)
    (outVals : List TEVal) (outMetas : List (List Nat × TorchDType))
    (h : nnc_compile m = .ok k)
    (hrun : runDriver m.graph = .ok s)
    (houts : s.outs = some (outVals, outMetas)) :
    k.alloc_results = outMetas.enum.map (fun p => Tensor.mk p.2.1 p.2.2 p.1) ∧
    (∀ inps : List Tensor,
      (kernelCall k inps none).written = k.alloc_results ∧
      (kernelCall k inps none).passed = k.module_stuff ++ inps ++ k.alloc_results ∧
      (kernelCall k inps none).ret =
        some (match k.alloc_results with
              | [r] => CallRet.single r
              | _ => CallRet.listR k.alloc_results)) := by
  constructor
  · unfold nnc_compile at h
    simp only [bind, Except.bind, hrun, houts] at h
    cases hab : s.module_attrs.mapM (fun n =>
        match s.env.lookup n.name with
        | some v => Except.ok v
        | none => Except.error CompileError.keyError) with
    | error e => simp only [hab] at h; cases h
    | ok attr_bufs =>
      simp only [hab] at h
      cases hms : s.module_attrs.mapM (fun n => fetch_attr m n.target) with
      | error e => simp only [hms] at h; cases h
      | ok module_stuff =>
        simp only [hms] at h
        cases h
        rfl
  · intro inps
    exact ⟨rfl, rfl, rfl⟩

/-- C6 witness: the example module has one recorded output of shape `[5]`;
calling without output buffers writes the one pre-allocated tensor and
returns it as a single tensor. -/
theorem C6_default_outputs_witness :
    ex_compiled.alloc_results =
      (ex_state.outs.getD ([], [])).2.enum.map (fun p => Tensor.mk p.2.1 p.2.2 p.1) ∧
    (kernelCall ex_compiled [⟨[5], .float, 1⟩] none).written = ex_compiled.alloc_results ∧
    (kernelCall ex_compiled [⟨[5], .float, 1⟩] none).ret =
      some (match ex_compiled.alloc_results with
            | [r] => CallRet.single r
            | _ => CallRet.listR ex_compiled.alloc_results) := by
  obtain ⟨h1, h2⟩ := C6_default_outputs ex_mod ex_compiled ex_state
    (ex_state.outs.getD ([], [])).1 (ex_state.outs.getD ([], [])).2 rfl rfl rfl
  exact ⟨h1, (h2 [⟨[5], .float, 1⟩]).1, (h2 [⟨[5], .float, 1⟩]).2.2⟩

/-! ### C3: the truncation utility -/

mutual

theorem remap_arg_id :
    ∀ (env : List (String × String)) (a : Arg),
      (∀ nm ∈ argRefs a, List.lookup nm env = some nm) → remap_arg env a = .ok a
  | env, .ref nm, h => by
    have hx := h nm (by simp [argRefs])
    simp [remap_arg, hx]
  | env, .lit sc, h => by
    simp [remap_arg]
  | env, .tup l, h => by
    have hl := remap_arg_list_id env l (fun nm hm => h nm (by simpa [argRefs] using hm))
    simp [remap_arg, hl, bind, Except.bind]

theorem remap_arg_list_id :
    ∀ (env : List (String × String)) (l : List Arg),
      (∀ nm ∈ argRefsList l, List.lookup nm env = some nm) → remap_arg_list env l = .ok l
  | env, [], h => by
    simp [remap_arg_list]
  | env, a :: rest, h => by
    have ha := remap_arg_id env a (fun nm hm => h nm (by simp [argRefsList, hm]))
    have hr := remap_arg_list_id env rest (fun nm hm => h nm (by simp [argRefsList, hm]))
    simp [remap_arg_list, ha, hr, bind, Except.bind]

end

theorem kwargs_copy_id (env : List (String × String)) :
    ∀ (l : List (String × Arg)),
      (∀ nm ∈ argRefsList (l.map Prod.snd), List.lookup nm env = some nm) →
      l.mapM (copy_kwarg env) = .ok l := by
  intro l
  induction l with
  | nil =>
    intro _
    rw [List.mapM_nil]
    rfl
  | cons p rest ih =>
    intro h
    rw [List.mapM_cons]
    have hp2 := remap_arg_id env p.2 (fun nm hm => h nm (by simp [argRefsList, hm]))
    have hp : copy_kwarg env p = .ok p := by
      simp only [copy_kwarg, hp2, bind, Except.bind]
    have hr := ih (fun nm hm => h nm (by simp [argRefsList, hm]))
    simp only [hp, hr, bind, Except.bind, pure, Except.pure]

theorem node_copy_id (env : List (String × String)) (n : FxNode)
    (h : ∀ nm ∈ nodeRefs n, List.lookup nm env = some nm) : node_copy env n = .ok n := by
  have ha := remap_arg_list_id env n.args (fun nm hm => h nm (by simp [nodeRefs, hm]))
  have hk := kwargs_copy_id env n.kwargs (fun nm hm => h nm (by simp [nodeRefs, hm]))
  simp only [node_copy, ha, hk, bind, Except.bind]

def dfltNode : FxNode := output_node ""

theorem truncate_go_spec (g : List FxNode) (hWF : WFGraph g) :
    ∀ (suf pre : List FxNode) (env : List (String × String)) (k : Nat),
      g = pre ++ suf →
      (∀ nm ∈ graphNames pre, List.lookup nm env = some nm) →
      pre.length < k → k ≤ g.length →
      truncate_go suf pre.length env k =
        .ok (suf.take (k - pre.length) ++
             [output_node ((g.getD (k - 1) dfltNode).name)]) := by
  intro suf
  induction suf with
  | nil =>
    intro pre env k hg henv hk1 hk2
    rw [hg] at hk2
    simp at hk2
    omega
  | cons n rest ih =>
    intro pre env k hg henv hk1 hk2
    have hpos : pre.length < g.length := by
      rw [hg]
      simp
    have hget : g.get ⟨pre.length, hpos⟩ = n := by
      subst hg
      show (pre ++ n :: rest)[pre.length] = n
      rw [List.getElem_append_right (Nat.le_refl pre.length)]
      simp
    have htake : g.take pre.length = pre := by
      rw [hg]
      exact List.take_left pre (n :: rest)
    have hrefs : ∀ nm ∈ nodeRefs n, List.lookup nm env = some nm := by
      intro nm hm
      apply henv
      have := hWF.2 ⟨pre.length, hpos⟩ nm (by rw [hget]; exact hm)
      rwa [htake] at this
    have hcopy := node_copy_id env n hrefs
    simp only [truncate_go, hcopy, bind, Except.bind]
    by_cases hk : pre.length + 1 = k
    · rw [if_pos hk]
      have h1 : k - pre.length = 1 := by omega
      have hgd : g.getD (k - 1) dfltNode = n := by
        have hke : k - 1 = pre.length := by omega
        rw [hke, List.getD_eq_getElem?_getD, hg,
          List.getElem?_append_right (Nat.le_refl pre.length)]
        simp
      rw [h1, hgd]
      simp
    · rw [if_neg hk]
      have henv2 : ∀ nm ∈ graphNames (pre ++ [n]),
          List.lookup nm ((n.name, n.name) :: env) = some nm := by
        intro nm hm
        by_cases hnm : nm = n.name
        · subst hnm
          simp [List.lookup]
        · have hpre : nm ∈ graphNames pre := by
            simp [graphNames] at hm
            rcases hm with hm | hm
            · simpa [graphNames] using hm
            · exact absurd hm hnm
          have hbeq : (nm == n.name) = false := by
            simpa using hnm
          simp [List.lookup, hbeq]
          exact henv nm hpre
      have hrec := ih (pre ++ [n]) ((n.name, n.name) :: env) k
        (by rw [hg]; simp) henv2 (by simp; omega) hk2
      simp only [List.length_append, List.length_cons, List.length_nil] at hrec
      rw [hrec]
      obtain ⟨j, hj⟩ : ∃ j, k - pre.length = j + 1 := ⟨k - pre.length - 1, by omega⟩
      have hj2 : k - (pre.length + 1) = j := by omega
      rw [hj, hj2]
      simp

/-- C3 (amended). For a well-formed traced graph and `1 ≤ k ≤ n`,
truncation yields the first `k` nodes copied unchanged (reference rewiring
through the identity node map), followed by ONE freshly appended output
marker referencing the `k`-th original node — so the node count is `k + 1`,
not `k`; when no original output marker lies among the first `k` nodes,
that appended marker is the sole output node of the result. -/
theorem C3_truncate_spec (g : List FxNode) (k : Nat) (hWF : WFGraph g)
    (hk1 : 1 ≤ k) (hk2 : k ≤ g.length) :
    truncate g k =
      .ok (g.take k ++ [output_node ((g.getD (k - 1) dfltNode).name)]) ∧
    (g.take k ++ [output_node ((g.getD (k - 1) dfltNode).name)]).length = k + 1 ∧
    ((∀ n ∈ g.take k, n.op ≠ "output") →
      (g.take k ++ [output_node ((g.getD (k - 1) dfltNode).name)]).filter
          (fun n => n.op == "output") =
        [output_node ((g.getD (k - 1) dfltNode).name)]) ∧
    (output_node ((g.getD (k - 1) dfltNode).name)).args =
      [.ref ((g.getD (k - 1) dfltNode).name)] := by
  refine ⟨?_, ?_, ?_, rfl⟩
  · have := truncate_go_spec g hWF g [] [] k (by simp) (by simp [graphNames]) (by simpa using hk1) hk2
    simpa [truncate] using this
  · simp only [List.length_append, List.length_take, List.length_cons, List.length_nil]
    omega
  · intro hout
    rw [List.filter_append]
    have h1 : (g.take k).filter (fun n => n.op == "output") = [] := by
      rw [List.filter_eq_nil_iff]
      intro n hn
      simpa using hout n hn
    rw [h1]
    simp [output_node]

/-- C3 counterexample: a two-node graph truncated to `k = 1` yields a
graph with 2 nodes (the copied node plus the appended output marker), not
`k = 1` nodes as claimed. -/
def cg3 : List FxNode :=
  [{ name := "x", op := "placeholder", target := "x", args := [], kwargs := [],
     meta := some ⟨[2], .float⟩ },
   { name := "output", op := "output", target := "output", args := [.ref "x"],
     kwargs := [], meta := none }]

theorem C3_truncate_counterexample :
    (truncate cg3 1).map List.length = .ok 2 ∧ (2 : Nat) ≠ 1 :=
  ⟨rfl, by decide⟩

/-- C3 witness: truncating a well-formed three-node graph to its first two
nodes gives those two nodes plus one output marker referencing the second. -/
def cg3w : List FxNode :=
  [{ name := "x", op := "placeholder", target := "x", args := [], kwargs := [],
     meta := some ⟨[2], .float⟩ },
   { name := "s1", op := "call_function", target := "torch.sin", args := [.ref "x"],
     kwargs := [], meta := some ⟨[2], .float⟩ },
   { name := "output", op := "output", target := "output", args := [.ref "s1"],
     kwargs := [], meta := none }]

theorem C3_truncate_witness :
    truncate cg3w 2 =
      .ok (cg3w.take 2 ++ [output_node ((cg3w.getD 1 dfltNode).name)]) ∧
    (cg3w.take 2 ++ [output_node ((cg3w.getD 1 dfltNode).name)]).length = 2 + 1 ∧
    (cg3w.take 2 ++ [output_node ((cg3w.getD 1 dfltNode).name)]).filter
        (fun n => n.op == "output") =
      [output_node ((cg3w.getD 1 dfltNode).name)] := by
  have hWF : WFGraph cg3w := by
    constructor
    · decide
    · intro i nm hm
      fin_cases i <;> simp_all [cg3w, nodeRefs, argRefs, argRefsList, graphNames]
  obtain ⟨h1, h2, h3, _⟩ := C3_truncate_spec cg3w 2 hWF (by decide) (by decide)
  refine ⟨h1, h2, h3 ?_⟩
  intro n hn
  fin_cases hn <;> decide

/-! ### C2: the buffer-argument order -/

def graphAttrs (g : List FxNode) : List FxNode :=
  g.filter (fun n => n.op == "get_attr")

def graphPlaceholders (g : List FxNode) : List FxNode :=
  g.filter (fun n => n.op == "placeholder")

/-- The environment handle a `get_attr` node is registered with (spec-side
description; the default branches are unreachable on a successful run). -/
def attr_handle (n : FxNode) : TEVal :=
  match n.meta with
  | some m =>
    match get_nnc_type m.dtype with
    | .ok ty => .placeholderData n.name ty (get_te_shapes (process_shape m.shape))
    | .error _ => .scalar (.int 0)
  | none => .scalar (.int 0)

/-- The placeholder a `placeholder` node is registered with (spec-side
description; the default branches are unreachable on a successful run). -/
def input_placeholder (n : FxNode) : TEPlaceholder :=
  match n.meta with
  | some m =>
    match get_nnc_type m.dtype with
    | .ok ty => ⟨n.name, ty, get_te_shapes m.shape⟩
    | .error _ => ⟨n.name, .Float, []⟩
  | none => ⟨n.name, .Float, []⟩

theorem driverStep_ok_effects {g : List FxNode} {s : DriverState} {n : FxNode}
    {s' : DriverState} (h : driverStep g s n = .ok s') :
    s'.module_attrs = s.module_attrs ++ (if n.op = "get_attr" then [n] else []) ∧
    s'.inputs = s.inputs ++ (if n.op = "placeholder" then [input_placeholder n] else []) ∧
    (∀ nm v, s.env.lookup nm = some v → n.name ≠ nm → s'.env.lookup nm = some v) ∧
    (n.op = "get_attr" → s'.env.lookup n.name = some (attr_handle n)) := by
  unfold driverStep at h
  by_cases hop1 : n.op = "placeholder"
  · rw [if_pos hop1] at h
    cases hm : n.meta with
    | none => rw [hm] at h; cases h
    | some m =>
      rw [hm] at h
      simp only [bind, Except.bind] at h
      cases hg : get_nnc_type m.dtype with
      | error e2 => rw [hg] at h; cases h
      | ok ty =>
        rw [hg] at h
        cases h
        refine ⟨by simp [hop1], ?_, ?_, ?_⟩
        · simp only [if_pos hop1, input_placeholder, hm, hg]
        · intro nm v hv hne
          simpa [List.lookup, beq_false_of_ne (Ne.symm hne)] using hv
        · intro hc
          rw [hop1] at hc
          exact absurd hc (by decide)
  · rw [if_neg hop1] at h
    by_cases hop2 : n.op = "call_function"
    · rw [if_pos hop2] at h
      by_cases hms : n.meta.isSome = true
      · rw [if_pos hms] at h
        by_cases hkw : n.kwargs.isEmpty = false
        · rw [if_pos hkw] at h
          cases h
        · rw [if_neg hkw] at h
          simp only [bind, Except.bind] at h
          cases hl : lookup_env_list s.env n.args with
          | error e2 => simp only [hl] at h; cases h
          | ok vs =>
            simp only [hl] at h
            cases hlf : lower_function g n n.target vs n.args with
            | error e3 => simp only [hlf] at h; cases h
            | ok p =>
              obtain ⟨buf, stmt⟩ := p
              simp only [hlf] at h
              cases h
              refine ⟨by simp [hop2], by simp [hop2], ?_, ?_⟩
              · intro nm v hv hne
                simpa [List.lookup, beq_false_of_ne (Ne.symm hne)] using hv
              · intro hc
                rw [hop2] at hc
                exact absurd hc (by decide)
      · rw [if_neg hms] at h
        have hres : s' = s := by
          split at h <;> (cases h; rfl)
        subst hres
        refine ⟨by simp [hop2], by simp [hop2], fun nm v hv _ => hv, ?_⟩
        intro hc
        rw [hop2] at hc
        exact absurd hc (by decide)
    · rw [if_neg hop2] at h
      by_cases hop3 : n.op = "output"
      · rw [if_pos hop3] at h
        split at h
        · cases h
        · rename_i a0 restArgs heq
          simp only [bind, Except.bind] at h
          cases hl : lookup_env_list s.env (output_arg_list a0 restArgs) with
          | error e2 => simp only [hl] at h; cases h
          | ok te_args =>
            simp only [hl] at h
            cases hm2 : (output_arg_list a0 restArgs).mapM (output_meta g) with
            | error e3 => simp only [hm2] at h; cases h
            | ok metas =>
              simp only [hm2] at h
              cases h
              refine ⟨by simp [hop3], by simp [hop3], fun nm v hv _ => hv, ?_⟩
              intro hc
              rw [hop3] at hc
              exact absurd hc (by decide)
      · rw [if_neg hop3] at h
        by_cases hop4 : n.op = "get_attr"
        · rw [if_pos hop4] at h
          cases hm : n.meta with
          | none => rw [hm] at h; cases h
          | some m =>
            rw [hm] at h
            simp only [bind, Except.bind] at h
            cases hg : get_nnc_type m.dtype with
            | error e2 => rw [hg] at h; cases h
            | ok ty =>
              rw [hg] at h
              cases h
              refine ⟨by simp [hop4, hop1], ?_, ?_, ?_⟩
              · simp [hop1]
              · intro nm v hv hne
                simpa [List.lookup, beq_false_of_ne (Ne.symm hne)] using hv
              · intro _
                simp [List.lookup, placeholder_data, attr_handle, hm, hg]
        · rw [if_neg hop4] at h
          cases h

theorem foldlM_driver_effects (g : List FxNode) :
    ∀ (l : List FxNode) (s0 s : DriverState),
      (l.map (fun n => n.name)).Nodup →
      List.foldlM (driverStep g) s0 l = .ok s →
      s.module_attrs = s0.module_attrs ++ graphAttrs l ∧
      s.inputs = s0.inputs ++ (graphPlaceholders l).map input_placeholder ∧
      (∀ nm v, s0.env.lookup nm = some v → nm ∉ l.map (fun n => n.name) →
        s.env.lookup nm = some v) ∧
      (∀ n ∈ l, n.op = "get_attr" → s.env.lookup n.name = some (attr_handle n)) := by
  intro l
  induction l with
  | nil =>
    intro s0 s _ h
    cases h
    exact ⟨by simp [graphAttrs], by simp [graphPlaceholders], fun nm v hv _ => hv,
      fun n hn => absurd hn (List.not_mem_nil n)⟩
  | cons n rest ih =>
    intro s0 s hnd h
    rw [List.foldlM_cons] at h
    simp only [bind, Except.bind] at h
    cases hstep : driverStep g s0 n with
    | error e => simp only [hstep] at h; cases h
    | ok s1 =>
      simp only [hstep] at h
      have hnd1 : (rest.map (fun n => n.name)).Nodup := (List.nodup_cons.mp hnd).2
      have hnn : n.name ∉ rest.map (fun n => n.name) := (List.nodup_cons.mp hnd).1
      obtain ⟨e1, e2, e3, e4⟩ := driverStep_ok_effects hstep
      obtain ⟨i1, i2, i3, i4⟩ := ih s1 s hnd1 h
      refine ⟨?_, ?_, ?_, ?_⟩
      · rw [i1, e1]
        by_cases hga : n.op = "get_attr" <;>
          simp [graphAttrs, hga, List.filter_cons]
      · rw [i2, e2]
        by_cases hpl : n.op = "placeholder" <;>
          simp [graphPlaceholders, hpl, List.filter_cons]
      · intro nm v hv hnm
        have hne : n.name ≠ nm := by
          intro hq
          exact hnm (by simp [← hq])
        have hnr : nm ∉ rest.map (fun n => n.name) := by
          intro hq
          exact hnm (by simp [hq])
        exact i3 nm v (e3 nm v hv hne) hnr
      · intro n2 hn2 hga
        rcases List.mem_cons.mp hn2 with hq | hq
        · subst hq
          exact i3 n2.name (attr_handle n2) (e4 hga) hnn
        · exact i4 n2 hq hga

theorem mapM_env_lookup_attrs (s : DriverState) :
    ∀ l : List FxNode,
      (∀ n ∈ l, s.env.lookup n.name = some (attr_handle n)) →
      l.mapM (fun n =>
        match s.env.lookup n.name with
        | some v => Except.ok v
        | none => Except.error CompileError.keyError) = .ok (l.map attr_handle) := by
  intro l
  induction l with
  | nil =>
    intro _
    rw [List.mapM_nil]
    rfl
  | cons n rest ih =>
    intro h
    rw [List.mapM_cons]
    have hn := h n (List.mem_cons_self n rest)
    have hr := ih (fun n2 hn2 => h n2 (List.mem_cons_of_mem n hn2))
    simp only [hn, hr, bind, Except.bind, pure, Except.pure, List.map_cons]

/-- C2. On a successful compilation of a well-formed module, the codegen
buffer-argument list is exactly: the captured-state (get_attr) handles in
graph order, then the input placeholders in declaration order, then the
output handles; the captured-state tensors are fetched in that same graph
order; and every invocation of the returned callable passes buffers as
captured-state tensors, then the caller's positional inputs, then the
output buffers. -/
theorem C2_buffer_arg_order (m : FxModule) (k : Compiled) (s : DriverState)
    (outVals : List TEVal) (outMetas : List (List Nat × TorchDType))
    (hNodup : (graphNames m.graph).Nodup)
    (h : nnc_compile m = .ok k)
    (hrun : runDriver m.graph = .ok s)
    (houts : s.outs = some (outVals, outMetas)) :
    k.buffer_args =
      (graphAttrs m.graph).map attr_handle ++
      ((graphPlaceholders m.graph).map input_placeholder).map placeholder_data ++
      outVals ∧
    List.mapM (fun n => fetch_attr m n.target) (graphAttrs m.graph) = .ok k.module_stuff ∧
    (∀ (inps : List Tensor) (ot : Option (List Tensor)),
      (kernelCall k inps ot).passed =
        k.module_stuff ++ inps ++ (ot.getD k.alloc_results)) := by
  obtain ⟨f1, f2, _f3, f4⟩ := foldlM_driver_effects m.graph m.graph initState s hNodup hrun
  simp only [initState] at f1 f2
  have hattrs : s.module_attrs = graphAttrs m.graph := by simpa using f1
  have hinputs : s.inputs = (graphPlaceholders m.graph).map input_placeholder := by
    simpa using f2
  have hlkp : ∀ n ∈ s.module_attrs, s.env.lookup n.name = some (attr_handle n) := by
    intro n hn
    rw [hattrs] at hn
    exact f4 n (List.mem_of_mem_filter hn) (by simpa using List.of_mem_filter hn)
  unfold nnc_compile at h
  simp only [bind, Except.bind, hrun, houts] at h
  have hmap := mapM_env_lookup_attrs s s.module_attrs hlkp
  simp only [hmap] at h
  cases hms : s.module_attrs.mapM (fun n => fetch_attr m n.target) with
  | error e => simp only [hms] at h; cases h
  | ok module_stuff =>
    simp only [hms] at h
    cases h
    refine ⟨?_, ?_, ?_⟩
    · rw [hattrs, hinputs]
    · rw [← hattrs]
      exact hms
    · intro inps ot
      cases ot <;> rfl

/-- C2 witness: on the concrete example module (one captured attribute,
one placeholder, one output) the fixed order and the call-time order. -/
theorem C2_buffer_arg_order_witness :
    ex_compiled.buffer_args =
      (graphAttrs ex_mod.graph).map attr_handle ++
      ((graphPlaceholders ex_mod.graph).map input_placeholder).map placeholder_data ++
      (ex_state.outs.getD ([], [])).1 ∧
    List.mapM (fun n => fetch_attr ex_mod n.target) (graphAttrs ex_mod.graph) =
      .ok ex_compiled.module_stuff ∧
    (kernelCall ex_compiled [⟨[5], .float, 1⟩] none).passed =
      ex_compiled.module_stuff ++ [⟨[5], .float, 1⟩] ++ ex_compiled.alloc_results := by
  obtain ⟨h1, h2, h3⟩ := C2_buffer_arg_order ex_mod ex_compiled ex_state
    (ex_state.outs.getD ([], [])).1 (ex_state.outs.getD ([], [])).2
    (by decide) rfl rfl rfl
  exact ⟨h1, h2, h3 [⟨[5], .float, 1⟩] none⟩

/-! ### C4: dead-node elimination -/

/-- A node survives `remove_args` iff it is the output marker or has at
least one consumer in the original graph. -/
def keep_node (g : List FxNode) (n : FxNode) : Bool :=
  !decide (users_count g n.name = 0 ∧ n.op ≠ "output")

theorem users_count_append (A B : List FxNode) (nm : String) :
    users_count (A ++ B) nm = users_count A nm + users_count B nm := by
  simp [users_count, List.filter_append]

theorem users_count_zero (A : List FxNode) (nm : String)
    (h : ∀ m ∈ A, nm ∉ nodeRefs m) : users_count A nm = 0 := by
  rw [users_count, List.length_eq_zero, List.filter_eq_nil_iff]
  intro a ha
  simpa using h a ha

theorem WF_refs_at {g : List FxNode} (hWF : WFGraph g) :
    ∀ (a b : List FxNode) (m : FxNode), g = a ++ m :: b →
      ∀ nm ∈ nodeRefs m, nm ∈ graphNames a := by
  intro a b m hg nm hm
  have hpos : a.length < g.length := by
    rw [hg]
    simp
  have hget : g.get ⟨a.length, hpos⟩ = m := by
    subst hg
    show (a ++ m :: b)[a.length] = m
    rw [List.getElem_append_right (Nat.le_refl a.length)]
    simp
  have htake : g.take a.length = a := by
    rw [hg]
    exact List.take_left a (m :: b)
  have hx := hWF.2 ⟨a.length, hpos⟩ nm (by rw [hget]; exact hm)
  rwa [htake] at hx

theorem name_not_in_prefix {g : List FxNode} (hnd : (graphNames g).Nodup)
    (pre rest : List FxNode) (n : FxNode) (hg : g = pre ++ n :: rest) :
    n.name ∉ graphNames pre := by
  subst hg
  have hsplit : graphNames (pre ++ n :: rest) =
      graphNames pre ++ n.name :: graphNames rest := by
    simp [graphNames]
  rw [hsplit] at hnd
  rcases List.nodup_append.mp hnd with ⟨_, _, hdisj⟩
  intro hmem
  exact hdisj hmem (by simp)

theorem no_back_refs {g : List FxNode} (hWF : WFGraph g)
    (pre rest : List FxNode) (n : FxNode) (hg : g = pre ++ n :: rest) :
    ∀ m ∈ pre, n.name ∉ nodeRefs m := by
  intro m hm href
  obtain ⟨a, b, hab⟩ := List.append_of_mem hm
  have hg2 : g = a ++ m :: (b ++ n :: rest) := by
    rw [hg, hab]
    simp
  have hsub := WF_refs_at hWF a (b ++ n :: rest) m hg2 n.name href
  have hin : n.name ∈ graphNames pre := by
    rw [hab]
    simp only [graphNames, List.map_append, List.mem_append]
    exact Or.inl (by simpa [graphNames] using hsub)
  exact name_not_in_prefix hWF.1 pre rest n hg hin

theorem users_count_invariant {g : List FxNode} (hWF : WFGraph g)
    (pre rest : List FxNode) (n : FxNode) (hg : g = pre ++ n :: rest)
    (P : FxNode → Bool) :
    users_count (pre.filter P ++ n :: rest) n.name = users_count g n.name := by
  have hzero_pre : users_count pre n.name = 0 :=
    users_count_zero _ _ (no_back_refs hWF pre rest n hg)
  have hzero_fil : users_count (pre.filter P) n.name = 0 :=
    users_count_zero _ _
      (fun m hm => no_back_refs hWF pre rest n hg m (List.mem_of_mem_filter hm))
  rw [users_count_append, hzero_fil, hg, users_count_append, hzero_pre]

theorem remove_args_go_spec (g : List FxNode) (hWF : WFGraph g) :
    ∀ (todo pre : List FxNode),
      g = pre ++ todo →
      remove_args_go (pre.filter (keep_node g) ++ todo) todo = g.filter (keep_node g) := by
  intro todo
  induction todo with
  | nil =>
    intro pre hg
    subst hg
    simp [remove_args_go]
  | cons n rest ih =>
    intro pre hg
    have hcnt := users_count_invariant hWF pre rest n hg (keep_node g)
    simp only [remove_args_go]
    by_cases hcond :
      users_count (pre.filter (keep_node g) ++ n :: rest) n.name = 0 ∧ n.op ≠ "output"
    · rw [if_pos hcond]
      have hkeepf : keep_node g n = false := by
        simp only [keep_node, Bool.not_eq_false', decide_eq_true_eq]
        exact ⟨hcnt ▸ hcond.1, hcond.2⟩
      have hnoname : ∀ b ∈ pre.filter (keep_node g), ¬(b.name == n.name) = true := by
        intro b hb hbeq
        have hbn : b.name = n.name := by simpa using hbeq
        have : n.name ∈ graphNames pre := by
          rw [← hbn]
          exact List.mem_map_of_mem _ (List.mem_of_mem_filter hb)
        exact name_not_in_prefix hWF.1 pre rest n hg this
      have herase : (pre.filter (keep_node g) ++ n :: rest).eraseP
          (fun m => m.name == n.name) = pre.filter (keep_node g) ++ rest := by
        rw [List.eraseP_append_right _ hnoname]
        rw [List.eraseP_cons_of_pos]
        simp
      rw [herase]
      have hfil : pre.filter (keep_node g) = (pre ++ [n]).filter (keep_node g) := by
        simp [List.filter_append, hkeepf]
      rw [hfil]
      exact ih (pre ++ [n]) (by rw [hg]; simp)
    · rw [if_neg hcond]
      have hkeept : keep_node g n = true := by
        simp only [keep_node, Bool.not_eq_true', decide_eq_false_iff_not]
        intro hc
        exact hcond ⟨hcnt.symm ▸ hc.1, hc.2⟩
      have hstep : pre.filter (keep_node g) ++ n :: rest =
          (pre ++ [n]).filter (keep_node g) ++ rest := by
        simp [List.filter_append, hkeept]
      rw [hstep]
      exact ih (pre ++ [n]) (by rw [hg]; simp)

theorem remove_args_eq_filter (g : List FxNode) (hWF : WFGraph g) :
    remove_args g = g.filter (keep_node g) := by
  have hx := remove_args_go_spec g hWF g [] (by simp)
  simpa [remove_args] using hx

mutual

theorem evalArg_agree :
    ∀ (e1 e2 : List (String × Value)) (a : Arg),
      (∀ nm ∈ argRefs a, List.lookup nm e1 = List.lookup nm e2) →
      evalArg e1 a = evalArg e2 a
  | e1, e2, .ref nm, h => by
    have hx := h nm (by simp [argRefs])
    simp [evalArg, hx]
  | e1, e2, .lit sc, h => by
    simp [evalArg]
  | e1, e2, .tup l, h => by
    have hx := evalArgList_agree e1 e2 l (fun nm hm => h nm (by simpa [argRefs] using hm))
    simp [evalArg, hx]

theorem evalArgList_agree :
    ∀ (e1 e2 : List (String × Value)) (l : List Arg),
      (∀ nm ∈ argRefsList l, List.lookup nm e1 = List.lookup nm e2) →
      evalArgList e1 l = evalArgList e2 l
  | e1, e2, [], h => by
    simp [evalArgList]
  | e1, e2, a :: rest, h => by
    have ha := evalArg_agree e1 e2 a (fun nm hm => h nm (by simp [argRefsList, hm]))
    have hr := evalArgList_agree e1 e2 rest (fun nm hm => h nm (by simp [argRefsList, hm]))
    simp [evalArgList, ha, hr]

end

/-- Every name a node references survives dead-node elimination: the
referenced node lies strictly earlier and has at least one consumer. -/
theorem surviving_ref {g : List FxNode} (hWF : WFGraph g) (pre rest : List FxNode)
    (n : FxNode) (hg : g = pre ++ n :: rest) :
    ∀ nm ∈ nodeRefs n, nm ∈ graphNames (pre.filter (keep_node g)) := by
  intro nm hnm
  have hpre := WF_refs_at hWF pre rest n hg nm hnm
  obtain ⟨m, hm, hmn⟩ := List.mem_map.mp hpre
  have husers : users_count g nm ≠ 0 := by
    intro h0
    have hng : n ∈ g := by rw [hg]; simp
    have hmemf : n ∈ g.filter (fun x => nm ∈ nodeRefs x) :=
      List.mem_filter.mpr ⟨hng, by simpa using hnm⟩
    rw [users_count, List.length_eq_zero] at h0
    rw [h0] at hmemf
    exact absurd hmemf (List.not_mem_nil n)
  have hkeep : keep_node g m = true := by
    simp only [keep_node, Bool.not_eq_true', decide_eq_false_iff_not]
    intro hc
    rw [hmn] at hc
    exact husers hc.1
  exact hmn ▸ List.mem_map_of_mem _ (List.mem_filter.mpr ⟨hm, hkeep⟩)

theorem find?_filter_eq (p q : FxNode → Bool) (himp : ∀ x, p x = true → q x = true) :
    ∀ l : List FxNode, (l.filter q).find? p = l.find? p := by
  intro l
  induction l with
  | nil => rfl
  | cons x l ih =>
    by_cases hp : p x = true
    · have hq := himp x hp
      simp [List.filter_cons, hq, List.find?_cons, hp]
    · by_cases hq : q x = true
      · simp [List.filter_cons, hq, List.find?_cons, hp, ih]
      · simp [List.filter_cons, hq, List.find?_cons, hp, ih]

/-- Running the filtered graph and the full graph produces agreeing
environment lookups on every surviving name. -/
theorem runGraph_agree (g : List FxNode) (hWF : WFGraph g)
    (sem : String → List Value → Value) (inputs attrs : String → Value) :
    ∀ (suf pre : List FxNode) (envS envG : List (String × Value)),
      g = pre ++ suf →
      (∀ nm ∈ graphNames (pre.filter (keep_node g)),
        List.lookup nm envS = List.lookup nm envG) →
      (∀ nm, nm ∉ graphNames (pre.filter (keep_node g)) → List.lookup nm envS = none) →
      (∀ nm, nm ∉ graphNames pre → List.lookup nm envG = none) →
      ∀ nm ∈ graphNames (g.filter (keep_node g)),
        List.lookup nm
          (List.foldl (runStep sem inputs attrs) envS (suf.filter (keep_node g))) =
        List.lookup nm (List.foldl (runStep sem inputs attrs) envG suf) := by
  intro suf
  induction suf with
  | nil =>
    intro pre envS envG hg hagree hInvS hInvG nm hnm
    simp only [List.filter_nil, List.foldl_nil]
    have hpg : pre = g := by
      rw [hg]
      simp
    rw [hpg] at hagree
    exact hagree nm hnm
  | cons n rest ih =>
    intro pre envS envG hg hagree hInvS hInvG
    have hnn : n.name ∉ graphNames pre := name_not_in_prefix hWF.1 pre rest n hg
    have hnnf : n.name ∉ graphNames (pre.filter (keep_node g)) := by
      intro hx
      apply hnn
      obtain ⟨m, hm, hmn⟩ := List.mem_map.mp hx
      exact hmn ▸ List.mem_map_of_mem _ (List.mem_of_mem_filter hm)
    by_cases hkeep : keep_node g n = true
    · have hfc : (n :: rest).filter (keep_node g) = n :: rest.filter (keep_node g) := by
        simp [List.filter_cons, hkeep]
      rw [hfc]
      simp only [List.foldl_cons]
      have hnames' : graphNames ((pre ++ [n]).filter (keep_node g)) =
          graphNames (pre.filter (keep_node g)) ++ [n.name] := by
        simp [List.filter_append, List.filter_cons, hkeep, graphNames]
      by_cases hout : n.op = "output"
      · have hsS : runStep sem inputs attrs envS n = envS := by
          simp [runStep, hout]
        have hsG : runStep sem inputs attrs envG n = envG := by
          simp [runStep, hout]
        rw [hsS, hsG]
        apply ih (pre ++ [n]) envS envG (by rw [hg]; simp)
        · intro nm hnm2
          rw [hnames'] at hnm2
          rcases List.mem_append.mp hnm2 with hx | hx
          · exact hagree nm hx
          · have hxe : nm = n.name := by simpa using hx
            subst hxe
            rw [hInvS n.name hnnf, hInvG n.name hnn]
        · intro nm hnm2
          rw [hnames'] at hnm2
          apply hInvS
          intro hx
          exact hnm2 (List.mem_append.mpr (Or.inl hx))
        · intro nm hnm2
          apply hInvG
          intro hx
          apply hnm2
          simp only [graphNames, List.map_append, List.mem_append]
          exact Or.inl (by simpa [graphNames] using hx)
      · have hval : evalNodeVal sem inputs attrs envS n =
            evalNodeVal sem inputs attrs envG n := by
          unfold evalNodeVal
          by_cases h1 : n.op = "placeholder"
          · simp [h1]
          · by_cases h2 : n.op = "get_attr"
            · simp [h1, h2]
            · by_cases h3 : n.op = "call_function"
              · simp only [if_neg h1, if_neg h2, if_pos h3]
                have hargs : evalArgList envS n.args = evalArgList envG n.args := by
                  apply evalArgList_agree
                  intro nm hnm2
                  have hrefs : nm ∈ nodeRefs n := by
                    unfold nodeRefs
                    exact List.mem_append_left _ hnm2
                  exact hagree nm (surviving_ref hWF pre rest n hg nm hrefs)
                rw [hargs]
              · simp [h1, h2, h3]
        have hsS : runStep sem inputs attrs envS n =
            (n.name, evalNodeVal sem inputs attrs envS n) :: envS := by
          simp [runStep, hout]
        have hsG : runStep sem inputs attrs envG n =
            (n.name, evalNodeVal sem inputs attrs envG n) :: envG := by
          simp [runStep, hout]
        rw [hsS, hsG, hval]
        apply ih (pre ++ [n]) _ _ (by rw [hg]; simp)
        · intro nm hnm2
          rw [hnames'] at hnm2
          rcases List.mem_append.mp hnm2 with hx | hx
          · have hne : nm ≠ n.name := by
              intro he
              subst he
              exact hnnf hx
            simp only [List.lookup, beq_false_of_ne hne]
            exact hagree nm hx
          · have hxe : nm = n.name := by simpa using hx
            subst hxe
            simp [List.lookup]
        · intro nm hnm2
          rw [hnames'] at hnm2
          have hne : nm ≠ n.name := by
            intro he
            exact hnm2 (List.mem_append.mpr (Or.inr (by simp [he])))
          have hold : nm ∉ graphNames (pre.filter (keep_node g)) := by
            intro hx
            exact hnm2 (List.mem_append.mpr (Or.inl hx))
          simp only [List.lookup, beq_false_of_ne hne]
          exact hInvS nm hold
        · intro nm hnm2
          have hne : nm ≠ n.name := by
            intro he
            apply hnm2
            simp only [graphNames, List.map_append, List.mem_append]
            exact Or.inr (by simp [he])
          have hold : nm ∉ graphNames pre := by
            intro hx
            apply hnm2
            simp only [graphNames, List.map_append, List.mem_append]
            exact Or.inl (by simpa [graphNames] using hx)
          simp only [List.lookup, beq_false_of_ne hne]
          exact hInvG nm hold
    · have hkf : keep_node g n = false := by
        revert hkeep
        cases keep_node g n <;> simp
      have hprop : users_count g n.name = 0 ∧ n.op ≠ "output" := by
        have hx := hkf
        simp only [keep_node, Bool.not_eq_false', decide_eq_true_eq] at hx
        exact hx
      have hout : n.op ≠ "output" := hprop.2
      have hfc : (n :: rest).filter (keep_node g) = rest.filter (keep_node g) := by
        simp [List.filter_cons, hkf]
      rw [hfc]
      simp only [List.foldl_cons]
      have hsG : runStep sem inputs attrs envG n =
          (n.name, evalNodeVal sem inputs attrs envG n) :: envG := by
        simp [runStep, hout]
      rw [hsG]
      have hnames' : graphNames ((pre ++ [n]).filter (keep_node g)) =
          graphNames (pre.filter (keep_node g)) := by
        simp [List.filter_append, List.filter_cons, hkf, graphNames]
      apply ih (pre ++ [n]) envS _ (by rw [hg]; simp)
      · intro nm hnm2
        rw [hnames'] at hnm2
        have hne : nm ≠ n.name := by
          intro he
          subst he
          exact hnnf hnm2
        simp only [List.lookup, beq_false_of_ne hne]
        exact hagree nm hnm2
      · intro nm hnm2
        rw [hnames'] at hnm2
        exact hInvS nm hnm2
      · intro nm hnm2
        have hne : nm ≠ n.name := by
          intro he
          apply hnm2
          simp only [graphNames, List.map_append, List.mem_append]
          exact Or.inr (by simp [he])
        have hold : nm ∉ graphNames pre := by
          intro hx
          apply hnm2
          simp only [graphNames, List.map_append, List.mem_append]
          exact Or.inl (by simpa [graphNames] using hx)
        simp only [List.lookup, beq_false_of_ne hne]
        exact hInvG nm hold

/-- C4. Dead-node elimination removes exactly the nodes with zero
consumers in the original graph that are not output markers (one forward
pass: a node whose consumers all get erased later is judged on the
original counts and kept), and executing the cleaned graph produces the
same output as the original graph under any operator interpretation. -/
theorem C4_remove_args_spec (g : List FxNode) (hWF : WFGraph g)
    (sem : String → List Value → Value) (inputs attrs : String → Value) :
    remove_args g = g.filter (keep_node g) ∧
    (∀ n : FxNode, keep_node g n = false ↔ (users_count g n.name = 0 ∧ n.op ≠ "output")) ∧
    evalOutput sem inputs attrs (remove_args g) = evalOutput sem inputs attrs g := by
  have hfil := remove_args_eq_filter g hWF
  refine ⟨hfil, ?_, ?_⟩
  · intro n
    simp [keep_node]
  · rw [hfil]
    unfold evalOutput
    have hfind := find?_filter_eq (fun n : FxNode => n.op = "output") (keep_node g)
      (by
        intro x hx
        have hxo : x.op = "output" := of_decide_eq_true hx
        simp [keep_node, hxo]) g
    rw [hfind]
    cases ho : g.find? (fun n : FxNode => n.op = "output") with
    | none => rfl
    | some o =>
      have hmem : o ∈ g := List.mem_of_find?_eq_some ho
      obtain ⟨a, b, hab⟩ := List.append_of_mem hmem
      have hagree := runGraph_agree g hWF sem inputs attrs g [] [] [] (by simp)
        (by intro nm hx; simp [graphNames] at hx) (fun nm _ => rfl) (fun nm _ => rfl)
      have hargs : evalArgList (runGraph sem inputs attrs (g.filter (keep_node g))) o.args =
          evalArgList (runGraph sem inputs attrs g) o.args := by
        apply evalArgList_agree
        intro nm hnm
        have hrefs : nm ∈ nodeRefs o := by
          unfold nodeRefs
          exact List.mem_append_left _ hnm
        have hsur := surviving_ref hWF a b o hab nm hrefs
        have hsg : nm ∈ graphNames (g.filter (keep_node g)) := by
          obtain ⟨m, hm, hmn⟩ := List.mem_map.mp hsur
          have hma : m ∈ a := List.mem_of_mem_filter hm
          have hkm : keep_node g m = true := List.of_mem_filter hm
          have hmg : m ∈ g := by
            rw [hab]
            exact List.mem_append_left _ hma
          exact hmn ▸ List.mem_map_of_mem _ (List.mem_filter.mpr ⟨hmg, hkm⟩)
        exact hagree nm hsg
      show some (evalArgList (runGraph sem inputs attrs (g.filter (keep_node g))) o.args) =
        some (evalArgList (runGraph sem inputs attrs g) o.args)
      rw [hargs]

/-- C4 witness: in a four-node graph where `s1 = sin(c1)` has no
consumers, `remove_args` erases exactly `s1`; `c1` loses its only consumer
but is kept (original counts, single pass); executing before and after
yields the same output. -/
def w4_x : FxNode :=
  { name := "x", op := "placeholder", target := "x", args := [], kwargs := [],
    meta := some ⟨[2], .float⟩ }

def w4_c : FxNode :=
  { name := "c1", op := "call_function", target := "torch.cos", args := [.ref "x"],
    kwargs := [], meta := some ⟨[2], .float⟩ }

def w4_s : FxNode :=
  { name := "s1", op := "call_function", target := "torch.sin", args := [.ref "c1"],
    kwargs := [], meta := some ⟨[2], .float⟩ }

def w4_o : FxNode :=
  { name := "output", op := "output", target := "output", args := [.ref "x"],
    kwargs := [], meta := none }

def g4w : List FxNode := [w4_x, w4_c, w4_s, w4_o]

def sem4 : String → List Value → Value := fun _ vs => Value.tupV vs

def inputs4 : String → Value := fun _ => Value.scalar (.int 7)

def attrs4 : String → Value := fun _ => Value.scalar (.int 0)

theorem C4_remove_args_witness :
    remove_args g4w = [w4_x, w4_c, w4_o] ∧
    keep_node g4w w4_s = false ∧
    keep_node g4w w4_c = true ∧
    evalOutput sem4 inputs4 attrs4 (remove_args g4w) =
      evalOutput sem4 inputs4 attrs4 g4w := by
  obtain ⟨h1, h2, h3⟩ := C4_remove_args_spec g4w ⟨by decide, by decide⟩ sem4 inputs4 attrs4
  refine ⟨h1.trans (by rfl), ?_, by decide, h3⟩
  exact (h2 w4_s).mpr ⟨by decide, by decide⟩

end NNC
